import Mathlib

/-! Verification of the hikyuu `ThreadPool` (a work-stealing thread pool).

Source embedded: `hikyuu_cpp/hikyuu/utilities/thread/ThreadPool.h`.

The development has three parts.

* **Sequential layer.** Every member function of `ThreadPool` is a Lean function on
  the pool state (`ThreadPool`) and the calling thread's `thread_local` triple
  (`ThreadLocal`).
* **Construction events.** The constructor and the destructor as the ordered list of
  the effects they perform.
* **Interleaving layer.** A small-step machine (`Sys`, `step`) whose actions are the
  atomic steps of the constructor, the worker threads, `submit`, `join` and calls
  of the public `run_pending_task` made by running tasks or by other threads,
  scheduled in any order. The vector `m_queues` is modelled with its element
  buffer, so that a `push_back` that reallocates while a worker is reading
  `m_queues[m_index]` is visible.

`FuncWrapper.h`, `WorkStealQueue.h` and `ThreadSafeQueue.h` are included by the
source but are not part of it; they are modelled from the specification.
-/

namespace hku

/-! ## Types the source includes but does not define -/

/-- Modelled from the spec: `FuncWrapper` (FuncWrapper.h is missing). A task is a
type-erased zero-argument callable; a default-constructed task is the "stop"
sentinel, and `is_stop_task()` is true only for it. The wrapped callable is
identified by a number. -/
inductive FuncWrapper where
  | stop : FuncWrapper
  | work (f : Nat) : FuncWrapper
  deriving DecidableEq, Repr

/-- Modelled from the spec: `FuncWrapper::is_stop_task` (FuncWrapper.h is missing):
true only for the default-constructed sentinel. -/
def FuncWrapper.is_stop_task : FuncWrapper → Bool
  | .stop => true
  | .work _ => false

/-- Modelled from the spec: `WorkStealQueue` (WorkStealQueue.h is missing), a
double-ended queue. The head of the list is the owner end (front), the last
element is the thief end (back). -/
abbrev WorkStealQueue := List FuncWrapper

/-- Modelled from the spec: `WorkStealQueue::push` (WorkStealQueue.h is missing):
the owner pushes at the front. -/
def WorkStealQueue.push (q : WorkStealQueue) (t : FuncWrapper) : WorkStealQueue :=
  t :: q

/-- Modelled from the spec: `WorkStealQueue::try_pop` (WorkStealQueue.h is missing):
the owner pops from the front, the same end it pushes to; fails on an empty
queue. -/
def WorkStealQueue.try_pop : WorkStealQueue → Option (FuncWrapper × WorkStealQueue)
  | [] => none
  | t :: q => some (t, q)

/-- Modelled from the spec: `WorkStealQueue::try_steal` (WorkStealQueue.h is
missing): a thief takes from the back, the end opposite to the owner; fails on an
empty queue. -/
def WorkStealQueue.try_steal (q : WorkStealQueue) : Option (FuncWrapper × WorkStealQueue) :=
  match q.getLast? with
  | none => none
  | some t => some (t, q.dropLast)

/-- Modelled from the spec: `ThreadSafeQueue<FuncWrapper>` (ThreadSafeQueue.h is
missing), an unbounded FIFO. The head of the list is the oldest element. -/
abbrev ThreadSafeQueue := List FuncWrapper

/-- Modelled from the spec: `ThreadSafeQueue::push` (ThreadSafeQueue.h is missing):
never fails, appends at the tail. -/
def ThreadSafeQueue.push (q : ThreadSafeQueue) (t : FuncWrapper) : ThreadSafeQueue :=
  q ++ [t]

/-- Modelled from the spec: `ThreadSafeQueue::try_pop` (ThreadSafeQueue.h is
missing): non-blocking, removes the oldest element, fails on an empty queue. -/
def ThreadSafeQueue.try_pop : ThreadSafeQueue → Option (FuncWrapper × ThreadSafeQueue)
  | [] => none
  | t :: q => some (t, q)

/-! ## Pool state and thread-local state -/

/-- Number of values of `size_t` (64-bit). -/
def SIZE_T_MOD : Nat := 2 ^ 64

/-- The data members of `ThreadPool` (lines 96-100), plus two ghost fields.
`m_threads` lives in the interleaving layer. -/
structure ThreadPool where
  /-- Field `std::atomic_bool m_done`. -/
  m_done : Bool
  /-- Field `bool m_init_finished`. -/
  m_init_finished : Bool
  /-- Field `size_t m_worker_num`. -/
  m_worker_num : Nat
  /-- Field `ThreadSafeQueue<task_type> m_pool_work_queue`. -/
  m_pool_work_queue : ThreadSafeQueue
  /-- Field `std::vector<std::unique_ptr<WorkStealQueue>> m_queues`. -/
  m_queues : List WorkStealQueue
  /-- Ghost: every task on which `task()` was evaluated, oldest first. -/
  invoked : List FuncWrapper
  /-- Ghost: set when `m_queues[index]` is evaluated with `index` out of range. -/
  oob : Bool
  deriving DecidableEq, Repr

/-- The three `inline static thread_local` members (lines 103-105). The pointer
`m_local_work_queue` is `none` for `nullptr` and `some j` when it points to the
queue owned by `m_queues[j]`. -/
structure ThreadLocal where
  /-- Field `WorkStealQueue* m_local_work_queue`. -/
  m_local_work_queue : Option Nat
  /-- Field `size_t m_index`. -/
  m_index : Nat
  /-- Field `bool m_thread_need_stop`. -/
  m_thread_need_stop : Bool
  deriving DecidableEq, Repr

/-- The initial value of the thread-local triple in every thread
(`nullptr`, `0`, `false`). -/
def ThreadLocal.fresh : ThreadLocal :=
  { m_local_work_queue := none, m_index := 0, m_thread_need_stop := false }

/-- The queue stored in slot `index` of `m_queues` (empty when out of range). -/
def ThreadPool.queueAt (p : ThreadPool) (index : Nat) : WorkStealQueue :=
  p.m_queues.getD index []

/-- Ghost effect of evaluating `task()`: the task is appended to the log. -/
def ThreadPool.call (p : ThreadPool) (t : FuncWrapper) : ThreadPool :=
  { p with invoked := p.invoked ++ [t] }

/-! ## Member functions (sequential layer) -/

/-- The function `ThreadPool::submit` (lines 54-65). The returned future is not
modelled. -/
def ThreadPool.submit (p : ThreadPool) (tl : ThreadLocal) (f : Nat) : ThreadPool :=
  match tl.m_local_work_queue with
  | some j =>
    { p with m_queues := p.m_queues.set j (WorkStealQueue.push (p.queueAt j) (.work f)) }
  | none =>
    { p with m_pool_work_queue := ThreadSafeQueue.push p.m_pool_work_queue (.work f) }

/-- The function `ThreadPool::pop_task_from_local_queue` (lines 116-118): the
popped task, if any, and the pool afterwards. -/
def ThreadPool.pop_task_from_local_queue (p : ThreadPool) (tl : ThreadLocal) :
    Option FuncWrapper × ThreadPool :=
  match tl.m_local_work_queue with
  | none => (none, p)
  | some j =>
    match WorkStealQueue.try_pop (p.queueAt j) with
    | none => (none, p)
    | some (t, q) => (some t, { p with m_queues := p.m_queues.set j q })

/-- The function `ThreadPool::pop_task_from_pool_queue` (lines 120-122). -/
def ThreadPool.pop_task_from_pool_queue (p : ThreadPool) : Option FuncWrapper × ThreadPool :=
  match ThreadSafeQueue.try_pop p.m_pool_work_queue with
  | none => (none, p)
  | some (t, q) => (some t, { p with m_pool_work_queue := q })

/-- The expression `m_queues[index]->try_steal(task)` (line 130). An index outside
the vector sets the ghost flag `oob`. -/
def ThreadPool.steal_at (p : ThreadPool) (index : Nat) : Option FuncWrapper × ThreadPool :=
  if index < p.m_queues.length then
    match WorkStealQueue.try_steal (p.queueAt index) with
    | none => (none, p)
    | some (t, q) => (some t, { p with m_queues := p.m_queues.set index q })
  else (none, { p with oob := true })

/-- The index computed on line 129, in `size_t` arithmetic. -/
def stealIndex (m_index i m_worker_num : Nat) : Nat :=
  ((m_index + i + 1) % SIZE_T_MOD) % m_worker_num

/-- Result of one tier-2 scan: the stolen task (if any), the pool afterwards, and
(ghost) the indices on which `try_steal` was called, in order. -/
structure Scan where
  /-- The stolen task, `none` when the function returns `false`. -/
  task : Option FuncWrapper
  /-- The pool after the scan. -/
  pool : ThreadPool
  /-- Ghost: the probed indices, in order. -/
  probes : List Nat
  deriving DecidableEq, Repr

/-- The `for` loop of `pop_task_from_other_thread_queue` (lines 128-133), with loop
counter `i` and `k` iterations left (`k = m_worker_num - i`). -/
def ThreadPool.stealLoop (tl : ThreadLocal) : Nat → Nat → ThreadPool → Scan
  | 0, _, p => { task := none, pool := p, probes := [] }
  | k + 1, i, p =>
    let index := stealIndex tl.m_index i p.m_worker_num
    match p.steal_at index with
    | (some t, p') => { task := some t, pool := p', probes := [index] }
    | (none, p') =>
      let r := ThreadPool.stealLoop tl k (i + 1) p'
      { r with probes := index :: r.probes }

/-- The function `ThreadPool::pop_task_from_other_thread_queue` (lines 124-135). -/
def ThreadPool.pop_task_from_other_thread_queue (p : ThreadPool) (tl : ThreadLocal) : Scan :=
  if !p.m_init_finished then { task := none, pool := p, probes := [] }
  else ThreadPool.stealLoop tl p.m_worker_num 0 p

/-- The function `ThreadPool::run_pending_task` (lines 67-80): the pool and the
caller's thread-local state afterwards. The final branch is the `yield`. -/
def ThreadPool.run_pending_task (p : ThreadPool) (tl : ThreadLocal) :
    ThreadPool × ThreadLocal :=
  match p.pop_task_from_local_queue tl with
  | (some t, p1) => (p1.call t, tl)
  | (none, p1) =>
    let s := p1.pop_task_from_other_thread_queue tl
    match s.task with
    | some t => (s.pool.call t, tl)
    | none =>
      match s.pool.pop_task_from_pool_queue with
      | (some t, p3) =>
        if t.is_stop_task then (p3, { tl with m_thread_need_stop := true })
        else (p3.call t, tl)
      | (none, p3) => (p3, tl)

/-- The first loop of `ThreadPool::join` (lines 83-85) with `k` iterations left. -/
def ThreadPool.joinLoop : Nat → ThreadPool → ThreadPool
  | 0, p => p
  | k + 1, p =>
    ThreadPool.joinLoop k
      { p with m_pool_work_queue := ThreadSafeQueue.push p.m_pool_work_queue .stop }

/-- The push phase of `ThreadPool::join` (lines 83-85). -/
def ThreadPool.join_push (p : ThreadPool) : ThreadPool :=
  ThreadPool.joinLoop p.m_worker_num p

/-- The indices `pop_task_from_other_thread_queue` computes on line 129 for
`i = 0, ..., m_worker_num - 1`, in order. -/
def ThreadPool.stealOrder (p : ThreadPool) (tl : ThreadLocal) : List Nat :=
  (List.range p.m_worker_num).map (fun i => stealIndex tl.m_index i p.m_worker_num)

/-- The content of the queue `m_local_work_queue` points to (empty for
`nullptr`). -/
def ThreadPool.ownQueue (p : ThreadPool) (tl : ThreadLocal) : WorkStealQueue :=
  match tl.m_local_work_queue with
  | none => []
  | some j => p.queueAt j

/-- No per-worker queue holds a stop sentinel, no sentinel was ever invoked, and
the pool is fully constructed. -/
def ThreadPool.Good (p : ThreadPool) : Prop :=
  (∀ q ∈ p.m_queues, FuncWrapper.stop ∉ q) ∧ FuncWrapper.stop ∉ p.invoked ∧
    p.m_init_finished = true ∧ p.m_queues.length = p.m_worker_num

/-- Number of tasks held in all queues of the pool. -/
def ThreadPool.queued (p : ThreadPool) : Nat :=
  p.m_pool_work_queue.length + (p.m_queues.map List.length).sum

/-- A call of the public interface made by a thread whose thread-local state is
`tl` (only the push phase of `join` changes the pool). -/
inductive Call where
  | submit (tl : ThreadLocal) (f : Nat) : Call
  | run_pending_task (tl : ThreadLocal) : Call
  | join : Call
  deriving DecidableEq, Repr

/-- Effect of one interface call on the pool. -/
def ThreadPool.apply (p : ThreadPool) : Call → ThreadPool
  | .submit tl f => p.submit tl f
  | .run_pending_task tl => (p.run_pending_task tl).1
  | .join => p.join_push

/-- Effect of a sequence of interface calls, first call first. -/
def ThreadPool.applyAll (p : ThreadPool) (cs : List Call) : ThreadPool :=
  cs.foldl ThreadPool.apply p

/-! ## Constructor and destructor as event sequences -/

/-- The effects the constructor, the destructor and `join` perform on queues and
threads. -/
inductive Event where
  /-- Line 28: queue `i` allocated and appended to `m_queues`. -/
  | createQueue (i : Nat) : Event
  /-- Line 29: thread `i` created (it starts running `worker_thread(i)`). -/
  | spawn (i : Nat) : Event
  /-- Line 29: creating thread `i` throws. -/
  | spawnFailed (i : Nat) : Event
  /-- Lines 32 and 39: `m_done = true`. -/
  | setDone : Event
  /-- Line 33: `throw;`. -/
  | rethrow : Event
  /-- Line 35: `m_init_finished = true`. -/
  | setInitFinished : Event
  /-- Lines 42 and 89: `m_threads[i].join()`. -/
  | joinThread (i : Nat) : Event
  deriving DecidableEq, Repr

/-- Outcome of running the constructor. -/
structure Construction where
  /-- The data members when the constructor is left. -/
  pool : ThreadPool
  /-- Number of entries of `m_threads`. -/
  started : Nat
  /-- Whether the constructor is left by the `throw;` of line 33. -/
  threw : Bool
  /-- The effects performed, in order. -/
  events : List Event
  deriving DecidableEq, Repr

/-- The data members after the member initialiser list of line 25. -/
def ThreadPool.initial (n : Nat) : ThreadPool :=
  { m_done := false, m_init_finished := false, m_worker_num := n,
    m_pool_work_queue := [], m_queues := [], invoked := [], oob := false }

/-- The body of `ThreadPool::ThreadPool(size_t)` (lines 26-35) from loop counter
`i` on, with `k` iterations left. Creating thread `failAt` throws. -/
def ThreadPool.ctorLoop (failAt : Option Nat) : Nat → Nat → ThreadPool → Construction
  | 0, i, p =>
    { pool := { p with m_init_finished := true }, started := i, threw := false,
      events := [.setInitFinished] }
  | k + 1, i, p =>
    let p1 := { p with m_queues := p.m_queues ++ [[]] }
    if failAt = some i then
      { pool := { p1 with m_done := true }, started := i, threw := true,
        events := [.createQueue i, .spawnFailed i, .setDone, .rethrow] }
    else
      let r := ThreadPool.ctorLoop failAt k (i + 1) p1
      { r with events := .createQueue i :: .spawn i :: r.events }

/-- The constructor `ThreadPool::ThreadPool(size_t n)` (lines 25-36). -/
def ThreadPool.ctor (n : Nat) (failAt : Option Nat) : Construction :=
  ThreadPool.ctorLoop failAt n 0 (ThreadPool.initial n)

/-- The destructor `ThreadPool::~ThreadPool` (lines 38-45) on a pool whose threads
are all joinable. -/
def ThreadPool.dtor (p : ThreadPool) : ThreadPool × List Event :=
  ({ p with m_done := true }, .setDone :: (List.range p.m_worker_num).map .joinThread)

/-- A pool as the constructor leaves it when no thread creation fails. -/
def ThreadPool.fresh (n : Nat) : ThreadPool :=
  (ThreadPool.ctor n none).pool

/-- Event `a` occurs in `l` and its first occurrence is before the first
occurrence of `b` (or `b` does not occur). -/
def precedes (a b : Event) (l : List Event) : Bool :=
  decide (a ∈ l) && decide (l.indexOf a < l.indexOf b)

/-! ## Interleaving layer -/

/-- Control points of a worker thread inside `worker_thread` and the functions it
calls. -/
inductive Pc where
  /-- Before line 108. -/
  | entry : Pc
  /-- Inside `m_queues[m_index]` on line 110: the thread has loaded the address
  `base` of the vector's element buffer and has not yet read the element. -/
  | entryRead (base : Nat) : Pc
  /-- The thread read `m_queues[m_index]` from a buffer that `push_back` had already
  freed: the pointer it obtained is arbitrary and its behaviour is undefined from
  here on. The thread takes no further step, so it never counts as having left
  `worker_thread`. -/
  | fault : Pc
  /-- At the loop test of line 111. -/
  | loopHead : Pc
  /-- Before `pop_task_from_local_queue` (line 69). -/
  | tier1 : Pc
  /-- Before the test of `m_init_finished` (line 125). -/
  | initCheck : Pc
  /-- At the loop test of line 128 with loop counter `i`. -/
  | tier2 (i : Nat) : Pc
  /-- Before `pop_task_from_pool_queue` (line 71). -/
  | tier3 : Pc
  /-- Inside `task()` (lines 70 and 75) for the popped task `t`. -/
  | call (t : FuncWrapper) : Pc
  /-- After the loop of line 111: the thread has finished. -/
  | exited : Pc
  deriving DecidableEq, Repr

/-- Whether the control point is inside or after the loop of line 111, i.e. after
line 110 has stored the queue pointer. -/
def Pc.inLoop : Pc → Bool
  | .entry => false
  | .entryRead _ => false
  | .fault => false
  | _ => true

/-- One entry of `m_threads`: the thread's control point, the argument it was
created with, its thread-local triple, and (ghost) the number of stop sentinels it
has popped. -/
structure Worker where
  /-- Control point. -/
  pc : Pc
  /-- The argument `index` of `worker_thread`. -/
  arg : Nat
  /-- The thread's thread-local triple. -/
  tl : ThreadLocal
  /-- Ghost: number of stop sentinels this thread popped. -/
  stops : Nat
  deriving DecidableEq, Repr

/-- Control points of the constructor. -/
inductive CtorPc where
  /-- At the loop test of line 27 with loop counter `i`. -/
  | queue (i : Nat) : CtorPc
  /-- Before line 29 with loop counter `i`. -/
  | thread (i : Nat) : CtorPc
  /-- After line 35. -/
  | finished : CtorPc
  /-- After line 33. -/
  | thrown : CtorPc
  deriving DecidableEq, Repr

/-- The whole system: pool, threads, constructor, the caller of `join`, and the
storage of the vector `m_queues`. The source never calls `reserve` on `m_queues`
and takes no lock around it, so `push_back` (line 28) moves the elements to a new
buffer and frees the old one whenever the size has reached the capacity. -/
structure Sys where
  /-- The data members. -/
  pool : ThreadPool
  /-- Field `m_threads`. -/
  threads : List Worker
  /-- Control point of the constructor. -/
  ctor : CtorPc
  /-- Loop counter of the first loop of `join` (lines 83-85). -/
  joinCount : Nat
  /-- Ghost: the callables passed to `submit`, oldest first. -/
  submitted : List Nat
  /-- Address (an identifier) of the buffer that holds the elements of `m_queues`;
  `0` before the first allocation. -/
  queuesBuffer : Nat
  /-- Capacity of `m_queues`. -/
  queuesCapacity : Nat
  /-- Ghost: number of stop sentinels popped by threads that are not workers. -/
  helperStops : Nat
  deriving DecidableEq, Repr

/-- The capacity `std::vector` grows to when `push_back` finds it full. The growth
policy belongs to the standard library, not to the source; doubling is assumed. Any
policy that gives the first element a buffer of capacity one, as the usual standard
libraries do, reallocates at the second `push_back`. -/
def grownCapacity (cap : Nat) : Nat :=
  max 1 (2 * cap)

/-- One atomic step of a worker thread running `worker_thread` (lines 107-114);
`buf` is the address of the buffer currently holding the elements of `m_queues`.
`entry` is lines 108-109 and the load of the buffer address for `m_queues[m_index]`;
`entryRead base` reads the element through that address and stores the pointer
(line 110), which is a read of freed memory when the vector has been reallocated in
between; `loopHead` is the test of line 111, `tier1` the call of line 117,
`initCheck` the test of line 125, `tier2 i` one iteration of the loop of lines
128-133, `tier3` lines 71-73, `call t` the evaluation of `task()` on line 70 or 75.
Each step contains at most one access to shared data. -/
def workerStep (p : ThreadPool) (buf : Nat) (w : Worker) : ThreadPool × Worker :=
  match w.pc with
  | .entry =>
    (p, { w with pc := .entryRead buf,
                 tl := { w.tl with m_index := w.arg, m_thread_need_stop := false } })
  | .entryRead base =>
    if base = buf then
      ({ p with oob := p.oob || decide (p.m_queues.length ≤ w.tl.m_index) },
       { w with pc := .loopHead,
                tl := { w.tl with m_local_work_queue := some w.tl.m_index } })
    else (p, { w with pc := .fault })
  | .fault => (p, w)
  | .loopHead =>
    if !w.tl.m_thread_need_stop && !p.m_done then (p, { w with pc := .tier1 })
    else (p, { w with pc := .exited })
  | .tier1 =>
    match p.pop_task_from_local_queue w.tl with
    | (some t, p') => (p', { w with pc := .call t })
    | (none, p') => (p', { w with pc := .initCheck })
  | .initCheck =>
    if !p.m_init_finished then (p, { w with pc := .tier3 })
    else (p, { w with pc := .tier2 0 })
  | .tier2 i =>
    if i < p.m_worker_num then
      match p.steal_at (stealIndex w.tl.m_index i p.m_worker_num) with
      | (some t, p') => (p', { w with pc := .call t })
      | (none, p') => (p', { w with pc := .tier2 (i + 1) })
    else (p, { w with pc := .tier3 })
  | .tier3 =>
    match p.pop_task_from_pool_queue with
    | (some t, p') =>
      if t.is_stop_task then
        (p', { w with pc := .loopHead, tl := { w.tl with m_thread_need_stop := true },
                      stops := w.stops + 1 })
      else (p', { w with pc := .call t })
    | (none, p') => (p', { w with pc := .loopHead })
  | .call t => (p.call t, { w with pc := .loopHead })
  | .exited => (p, w)

/-- The schedulable actions. The destructor is not among them: it may run only when
no other thread uses the pool any more. -/
inductive Action where
  /-- The constructor takes its next step; with `ok = false` the step throws. -/
  | ctor (ok : Bool) : Action
  /-- Thread `i` of `m_threads` takes its next step. -/
  | worker (i : Nat) : Action
  /-- The task running on thread `i` calls `submit(f)`. -/
  | submitFrom (i : Nat) (f : Nat) : Action
  /-- A thread that is not a worker calls `submit(f)` on the constructed pool. -/
  | submitExt (f : Nat) : Action
  /-- The task running on thread `i` calls the public `run_pending_task()`; the call
  is taken in one step. -/
  | runFrom (i : Nat) : Action
  /-- A thread that is not a worker calls the public `run_pending_task()` on the
  constructed pool; the call is taken in one step. -/
  | runExt : Action
  /-- The caller of `join` runs one iteration of the loop of lines 83-85. -/
  | joinPush : Action
  deriving DecidableEq, Repr

/-- Ghost: the number of stop sentinels a call removed from the shared queue, from
the pool before (`p`) and after (`p'`) the call. -/
def sentinelsTaken (p p' : ThreadPool) : Nat :=
  p.m_pool_work_queue.count .stop - p'.m_pool_work_queue.count .stop

/-- One step of the system. An action that is not enabled leaves the state
unchanged. -/
def step (s : Sys) : Action → Sys
  | .ctor ok =>
    match s.ctor with
    | .queue i =>
      if i < s.pool.m_worker_num then
        if ok then
          { s with pool := { s.pool with m_queues := s.pool.m_queues ++ [[]] },
                   ctor := .thread i,
                   queuesBuffer :=
                     if s.pool.m_queues.length = s.queuesCapacity then s.queuesBuffer + 1
                     else s.queuesBuffer,
                   queuesCapacity :=
                     if s.pool.m_queues.length = s.queuesCapacity then
                       grownCapacity s.queuesCapacity
                     else s.queuesCapacity }
        else { s with pool := { s.pool with m_done := true }, ctor := .thrown }
      else { s with pool := { s.pool with m_init_finished := true }, ctor := .finished }
    | .thread i =>
      if ok then
        { s with threads := s.threads ++
                   [{ pc := .entry, arg := i, tl := ThreadLocal.fresh, stops := 0 }],
                 ctor := .queue (i + 1) }
      else { s with pool := { s.pool with m_done := true }, ctor := .thrown }
    | .finished => s
    | .thrown => s
  | .worker i =>
    match s.threads[i]? with
    | none => s
    | some w =>
      let r := workerStep s.pool s.queuesBuffer w
      { s with pool := r.1, threads := s.threads.set i r.2 }
  | .submitFrom i f =>
    match s.threads[i]? with
    | none => s
    | some w =>
      match w.pc with
      | .call _ => { s with pool := s.pool.submit w.tl f, submitted := s.submitted ++ [f] }
      | _ => s
  | .submitExt f =>
    if s.ctor = .finished then
      { s with pool := s.pool.submit ThreadLocal.fresh f, submitted := s.submitted ++ [f] }
    else s
  | .runFrom i =>
    match s.threads[i]? with
    | none => s
    | some w =>
      match w.pc with
      | .call _ =>
        let r := s.pool.run_pending_task w.tl
        { s with pool := r.1,
                 threads := s.threads.set i
                   { w with tl := r.2, stops := w.stops + sentinelsTaken s.pool r.1 } }
      | _ => s
  | .runExt =>
    if s.ctor = .finished then
      let r := s.pool.run_pending_task ThreadLocal.fresh
      { s with pool := r.1, helperStops := s.helperStops + sentinelsTaken s.pool r.1 }
    else s
  | .joinPush =>
    if s.ctor = .finished ∧ s.joinCount < s.pool.m_worker_num then
      { s with pool := { s.pool with m_pool_work_queue :=
                           ThreadSafeQueue.push s.pool.m_pool_work_queue .stop },
               joinCount := s.joinCount + 1 }
    else s

/-- The state in which `ThreadPool(n)` starts executing its body. -/
def Sys.init (n : Nat) : Sys :=
  { pool := ThreadPool.initial n, threads := [], ctor := .queue 0, joinCount := 0,
    submitted := [], queuesBuffer := 0, queuesCapacity := 0, helperStops := 0 }

/-- The state after a schedule (an interleaving) `acts`. -/
def run (s : Sys) (acts : List Action) : Sys :=
  acts.foldl step s

/-- The call of `join` has returned: the constructor finished, the push loop is
complete, and every thread has left `worker_thread`. -/
def Sys.joinReturned (s : Sys) : Bool :=
  decide (s.ctor = .finished) && decide (s.joinCount = s.pool.m_worker_num) &&
    s.threads.all (fun w => decide (w.pc = .exited))

/-- The workers that have not left their loop and whose stop flag is not set: the
ones that still need a stop sentinel. -/
def Sys.awaitingStop (s : Sys) : List Worker :=
  s.threads.filter (fun w => decide (w.pc ≠ .exited) && !w.tl.m_thread_need_stop)

/-! ## Invariants of the interleaving layer -/

/-- What is known about thread `i` of `m_threads` at each control point, relative to
the pool `p`. -/
def Worker.Ok (p : ThreadPool) (i : Nat) (w : Worker) : Prop :=
  w.arg = i ∧
  (w.stops = 0 ↔ w.tl.m_thread_need_stop = false) ∧
  (w.pc.inLoop = true → w.tl.m_local_work_queue = some i ∧ w.tl.m_index = i) ∧
  match w.pc with
  | .entry => w.tl = ThreadLocal.fresh
  | .entryRead _ => w.tl.m_index = i ∧ w.tl.m_thread_need_stop = false
  | .fault => True
  | .loopHead => True
  | .tier1 => w.tl.m_thread_need_stop = false
  | .initCheck => w.tl.m_thread_need_stop = false ∧ p.queueAt i = []
  | .tier2 _ =>
    w.tl.m_thread_need_stop = false ∧ p.queueAt i = [] ∧ p.m_init_finished = true
  | .tier3 => w.tl.m_thread_need_stop = false ∧ p.queueAt i = []
  | .call t => t ≠ .stop
  | .exited => w.tl.m_thread_need_stop = true ∨ p.m_done = true

/-- What is known about the data members at each control point of the
constructor of `ThreadPool(n)`. -/
def CtorPc.Ok (n : Nat) (p : ThreadPool) (threads : Nat) : CtorPc → Prop
  | .queue i =>
    threads = i ∧ p.m_queues.length = i ∧ i ≤ n ∧ p.m_init_finished = false ∧
      p.m_done = false
  | .thread i =>
    threads = i ∧ p.m_queues.length = i + 1 ∧ i < n ∧ p.m_init_finished = false ∧
      p.m_done = false
  | .finished =>
    threads = n ∧ p.m_queues.length = n ∧ p.m_init_finished = true ∧ p.m_done = false
  | .thrown => p.m_queues.length ≤ n ∧ p.m_init_finished = false ∧ p.m_done = true

/-- The invariant of the interleaving layer for a pool of `n` workers. -/
def Sys.Inv (n : Nat) (s : Sys) : Prop :=
  s.pool.m_worker_num = n ∧ s.pool.oob = false ∧ s.joinCount ≤ n ∧
  (0 < s.joinCount → s.ctor = .finished) ∧
  s.threads.length ≤ s.pool.m_queues.length ∧
  s.ctor.Ok n s.pool s.threads.length ∧
  (∀ (i : Nat) (w : Worker), s.threads[i]? = some w → w.Ok s.pool i) ∧
  (∀ q ∈ s.pool.m_queues, FuncWrapper.stop ∉ q) ∧
  FuncWrapper.stop ∉ s.pool.invoked ∧
  s.pool.m_pool_work_queue.count .stop + (s.threads.map Worker.stops).sum
      + s.helperStops = s.joinCount

/-- Worker `j` can never be stopped: the constructor has finished, `join` has pushed
all `n` sentinels, none of them is left in the shared queue, and thread `j` has
neither its stop flag set nor left its loop. -/
def Sys.Starved (n j : Nat) (s : Sys) : Prop :=
  s.Inv n ∧ s.ctor = .finished ∧ s.joinCount = n ∧
  s.pool.m_pool_work_queue.count .stop = 0 ∧
  ∃ w, s.threads[j]? = some w ∧ w.tl.m_thread_need_stop = false ∧ w.pc ≠ .exited

/-- The state of the pool and of one worker thread after `k` consecutive steps of
that thread, no other thread running in between. -/
def workerRun (buf : Nat) : Nat → ThreadPool × Worker → ThreadPool × Worker
  | 0, s => s
  | k + 1, s => workerRun buf k (workerStep s.1 buf s.2)

/-! ## Concrete pools and schedules -/

/-- A two-worker pool with two tasks in queue 1 and a task and a sentinel in the
shared queue. -/
def demoPool : ThreadPool :=
  { m_done := false, m_init_finished := true, m_worker_num := 2,
    m_pool_work_queue := [.work 9, .stop], m_queues := [[], [.work 3, .work 4]],
    invoked := [], oob := false }

/-- The thread-local state of worker 0 inside its loop. -/
def demoWorker : ThreadLocal :=
  { m_local_work_queue := some 0, m_index := 0, m_thread_need_stop := false }

/-- A schedule of a two-worker pool in which the constructor's second `push_back`
reallocates `m_queues` while worker 0 is inside `m_queues[m_index]`: queue 0 is
created, worker 0 is spawned and loads the buffer address, queue 1 is created (the
vector is full, so its elements move to a new buffer), worker 0 reads element 0
through the old address. -/
def raceSchedule : List Action :=
  [.ctor true, .ctor true, .worker 0, .ctor true, .worker 0]

/-- A schedule of a two-worker pool up to the end of the push loop of `join`:
construction; an outside thread submits task 1; worker 0 takes it from the shared
queue and starts running it; worker 1 enters its loop; `join` pushes its two
sentinels. -/
def starvePrefix : List Action :=
  [.ctor true, .ctor true, .ctor true, .ctor true, .ctor true, .submitExt 1] ++
  List.replicate 9 (.worker 0) ++ List.replicate 3 (.worker 1) ++ [.joinPush, .joinPush]

/-- The continuation of `starvePrefix`: task 1, still running on worker 0, calls
`run_pending_task()` twice. -/
def starveSuffix : List Action :=
  [.runFrom 0, .runFrom 0]

end hku

/-! # Theorems -/

set_option linter.unnecessarySeqFocus false

namespace hku

/-! ## Lists and queues -/

theorem sum_map_set {α : Type} (g : α → Nat) (l : List α) (j : Nat) (a d : α)
    (h : j < l.length) :
    ((l.set j a).map g).sum + g (l.getD j d) = (l.map g).sum + g a := by
  induction l generalizing j with
  | nil => simp at h
  | cons x xs ih =>
    cases j with
    | zero => simp [List.set, List.getD]; omega
    | succ j =>
      have := ih j (by simpa using h)
      simp [List.set] at this ⊢
      omega

theorem getD_set_self {α : Type} (l : List α) (j : Nat) (a d : α) (h : j < l.length) :
    (l.set j a).getD j d = a := by
  simp [List.getD_eq_getElem?_getD, List.getElem?_set, h]

theorem getD_set_ne {α : Type} (l : List α) (j k : Nat) (a d : α) (h : k ≠ j) :
    (l.set j a).getD k d = l.getD k d := by
  simp [List.getD_eq_getElem?_getD, List.getElem?_set, Ne.symm h]

theorem try_steal_nil : WorkStealQueue.try_steal [] = none := rfl

theorem try_steal_concat (q : WorkStealQueue) (t : FuncWrapper) :
    WorkStealQueue.try_steal (q ++ [t]) = some (t, q) := by
  simp [WorkStealQueue.try_steal, List.getLast?_append, List.dropLast_concat]

/-! ## C1: routing of `submit` -/

/-- C1. `submit(f)` adds exactly one task wrapping `f` to exactly one queue. When the
caller's thread-local queue pointer is set (to queue `j`), the task is pushed at
the owner end of queue `j`; the shared queue and every other per-worker queue are
unchanged. When the pointer is null the task is appended to the shared overflow
queue and no per-worker queue changes. In both cases the number of queued tasks
grows by exactly one and nothing else in the pool changes. -/
theorem submit_routing (p : ThreadPool) (tl : ThreadLocal) (f : Nat) :
    (∀ j, tl.m_local_work_queue = some j → j < p.m_queues.length →
      p.submit tl f = { p with m_queues := p.m_queues.set j (.work f :: p.queueAt j) } ∧
      (p.submit tl f).queueAt j = .work f :: p.queueAt j ∧
      (∀ k, k ≠ j → (p.submit tl f).queueAt k = p.queueAt k) ∧
      (p.submit tl f).m_pool_work_queue = p.m_pool_work_queue ∧
      (p.submit tl f).queued = p.queued + 1) ∧
    (tl.m_local_work_queue = none →
      p.submit tl f = { p with m_pool_work_queue := p.m_pool_work_queue ++ [.work f] } ∧
      (p.submit tl f).m_queues = p.m_queues ∧
      (p.submit tl f).queued = p.queued + 1) := by
  refine ⟨?_, ?_⟩
  · intro j hj hlt
    have hs : p.submit tl f =
        { p with m_queues := p.m_queues.set j (.work f :: p.queueAt j) } := by
      simp [ThreadPool.submit, hj, WorkStealQueue.push]
    refine ⟨hs, ?_, ?_, ?_, ?_⟩
    · rw [hs]; exact getD_set_self _ _ _ _ hlt
    · intro k hk; rw [hs]; exact getD_set_ne _ _ _ _ _ hk
    · rw [hs]
    · rw [hs]
      have := sum_map_set List.length p.m_queues j (.work f :: p.queueAt j) [] hlt
      simp [ThreadPool.queued, ThreadPool.queueAt] at this ⊢
      omega
  · intro hn
    have hs : p.submit tl f =
        { p with m_pool_work_queue := p.m_pool_work_queue ++ [.work f] } := by
      simp [ThreadPool.submit, hn, ThreadSafeQueue.push]
    refine ⟨hs, ?_, ?_⟩
    · rw [hs]
    · rw [hs]; simp [ThreadPool.queued]; omega

/-- Witness for C1: on a two-worker pool, a submit from worker 1 lands at the front
of queue 1. -/
theorem submit_routing_witness :
    ((ThreadPool.fresh 2).submit
        { m_local_work_queue := some 1, m_index := 1, m_thread_need_stop := false } 5).queueAt 1
      = .work 5 :: (ThreadPool.fresh 2).queueAt 1 :=
  ((submit_routing (ThreadPool.fresh 2)
      { m_local_work_queue := some 1, m_index := 1, m_thread_need_stop := false } 5).1
        1 rfl (by decide)).2.1

/-! ## C4: the push phase of `join` -/

theorem joinLoop_spec (k : Nat) (p : ThreadPool) :
    ThreadPool.joinLoop k p =
      { p with m_pool_work_queue := p.m_pool_work_queue ++ List.replicate k .stop } := by
  induction k generalizing p with
  | zero => simp [ThreadPool.joinLoop]
  | succ k ih =>
    simp [ThreadPool.joinLoop, ih, ThreadSafeQueue.push, List.replicate_succ]

/-- C4. The push phase of `join()` on a pool with `n` workers and shared-queue
content `q` leaves the shared queue equal to `q` followed by exactly `n` stop
sentinels (each satisfies `is_stop_task`), pushes nothing onto any per-worker
queue, and leaves the pool-wide done flag (and every other member) as it was. -/
theorem join_push_sentinels (p : ThreadPool) :
    p.join_push.m_pool_work_queue
        = p.m_pool_work_queue ++ List.replicate p.m_worker_num FuncWrapper.stop ∧
    (∀ t ∈ List.replicate p.m_worker_num FuncWrapper.stop, t.is_stop_task = true) ∧
    (List.replicate p.m_worker_num FuncWrapper.stop).length = p.m_worker_num ∧
    p.join_push.m_queues = p.m_queues ∧
    p.join_push.m_done = p.m_done ∧
    p.join_push =
      { p with m_pool_work_queue :=
          p.m_pool_work_queue ++ List.replicate p.m_worker_num FuncWrapper.stop } := by
  have h := joinLoop_spec p.m_worker_num p
  refine ⟨?_, ?_, ?_, ?_, ?_, ?_⟩
  · simp [ThreadPool.join_push, h]
  · intro t ht
    rw [List.eq_of_mem_replicate ht]; rfl
  · simp
  · simp [ThreadPool.join_push, h]
  · simp [ThreadPool.join_push, h]
  · simp [ThreadPool.join_push, h]

/-! ## The tier-2 scan -/

theorem stealIndex_lt (m i n : Nat) (h : 0 < n) : stealIndex m i n < n :=
  Nat.mod_lt _ h

theorem steal_at_empty (p : ThreadPool) (j : Nat) (hj : j < p.m_queues.length)
    (he : p.queueAt j = []) : p.steal_at j = (none, p) := by
  simp [ThreadPool.steal_at, hj, he, try_steal_nil]

theorem steal_at_concat (p : ThreadPool) (j : Nat) (q : WorkStealQueue) (t : FuncWrapper)
    (hj : j < p.m_queues.length) (he : p.queueAt j = q ++ [t]) :
    p.steal_at j = (some t, { p with m_queues := p.m_queues.set j q }) := by
  simp [ThreadPool.steal_at, hj, he, try_steal_concat]

theorem stealLoop_none (tl : ThreadLocal) (p : ThreadPool)
    (hlen : p.m_queues.length = p.m_worker_num) (hn : 0 < p.m_worker_num) (k i : Nat)
    (he : ∀ x ∈ (List.range' i k).map (fun x => stealIndex tl.m_index x p.m_worker_num),
      p.queueAt x = []) :
    ThreadPool.stealLoop tl k i p =
      { task := none, pool := p,
        probes := (List.range' i k).map (fun x => stealIndex tl.m_index x p.m_worker_num) } := by
  induction k generalizing i with
  | zero => simp [ThreadPool.stealLoop]
  | succ k ih =>
    have h0 : p.queueAt (stealIndex tl.m_index i p.m_worker_num) = [] :=
      he _ (by simp [List.range'_succ])
    have hlt : stealIndex tl.m_index i p.m_worker_num < p.m_queues.length := by
      rw [hlen]; exact stealIndex_lt _ _ _ hn
    have ih' := ih (i + 1) (fun x hx => he x (by
      simp only [List.range'_succ, List.map_cons, List.mem_cons]; exact Or.inr hx))
    simp [ThreadPool.stealLoop, steal_at_empty p _ hlt h0, ih', List.range'_succ]

theorem stealLoop_hit (tl : ThreadLocal) (p : ThreadPool)
    (hlen : p.m_queues.length = p.m_worker_num) (hn : 0 < p.m_worker_num) (k i : Nat)
    (pre : List Nat) (j : Nat) (post : List Nat) (q : WorkStealQueue) (t : FuncWrapper)
    (hsplit : (List.range' i k).map (fun x => stealIndex tl.m_index x p.m_worker_num)
      = pre ++ j :: post)
    (hpre : ∀ x ∈ pre, p.queueAt x = []) (hj : p.queueAt j = q ++ [t]) :
    ThreadPool.stealLoop tl k i p =
      { task := some t, pool := { p with m_queues := p.m_queues.set j q },
        probes := pre ++ [j] } := by
  induction k generalizing i pre with
  | zero => simp at hsplit
  | succ k ih =>
    have hlt : stealIndex tl.m_index i p.m_worker_num < p.m_queues.length := by
      rw [hlen]; exact stealIndex_lt _ _ _ hn
    rw [List.range'_succ, List.map_cons] at hsplit
    cases pre with
    | nil =>
      simp only [List.nil_append, List.cons.injEq] at hsplit
      obtain ⟨hij, -⟩ := hsplit
      subst hij
      simp [ThreadPool.stealLoop, steal_at_concat p _ q t hlt hj]
    | cons a pre' =>
      simp only [List.cons_append, List.cons.injEq] at hsplit
      obtain ⟨hia, hrest⟩ := hsplit
      subst hia
      have h0 : p.queueAt (stealIndex tl.m_index i p.m_worker_num) = [] :=
        hpre _ (by simp)
      have ih' := ih (i + 1) pre' hrest (fun x hx => hpre x (by simp [hx]))
      simp [ThreadPool.stealLoop, steal_at_empty p _ hlt h0, ih']

theorem scan_none (p : ThreadPool) (tl : ThreadLocal) (hinit : p.m_init_finished = true)
    (hlen : p.m_queues.length = p.m_worker_num)
    (he : ∀ x ∈ p.stealOrder tl, p.queueAt x = []) :
    p.pop_task_from_other_thread_queue tl =
      { task := none, pool := p, probes := p.stealOrder tl } := by
  rcases Nat.eq_zero_or_pos p.m_worker_num with h0 | hn
  · simp [ThreadPool.pop_task_from_other_thread_queue, hinit, h0, ThreadPool.stealLoop,
      ThreadPool.stealOrder]
  · have := stealLoop_none tl p hlen hn p.m_worker_num 0
      (by simpa [ThreadPool.stealOrder, List.range_eq_range'] using he)
    simp [ThreadPool.pop_task_from_other_thread_queue, hinit, this, ThreadPool.stealOrder,
      List.range_eq_range']

theorem scan_hit (p : ThreadPool) (tl : ThreadLocal) (hinit : p.m_init_finished = true)
    (hlen : p.m_queues.length = p.m_worker_num)
    (pre : List Nat) (j : Nat) (post : List Nat) (q : WorkStealQueue) (t : FuncWrapper)
    (hsplit : p.stealOrder tl = pre ++ j :: post)
    (hpre : ∀ x ∈ pre, p.queueAt x = []) (hj : p.queueAt j = q ++ [t]) :
    p.pop_task_from_other_thread_queue tl =
      { task := some t, pool := { p with m_queues := p.m_queues.set j q },
        probes := pre ++ [j] } := by
  rcases Nat.eq_zero_or_pos p.m_worker_num with h0 | hn
  · simp [ThreadPool.stealOrder, h0] at hsplit
  · have := stealLoop_hit tl p hlen hn p.m_worker_num 0 pre j post q t
      (by simpa [ThreadPool.stealOrder, List.range_eq_range'] using hsplit) hpre hj
    simp [ThreadPool.pop_task_from_other_thread_queue, hinit, this]

theorem first_failure_split (P : Nat → Prop) [DecidablePred P] (l : List Nat) :
    (∀ x ∈ l, P x) ∨
      ∃ pre j post, l = pre ++ j :: post ∧ (∀ x ∈ pre, P x) ∧ ¬ P j := by
  induction l with
  | nil => left; simp
  | cons a l ih =>
    by_cases ha : P a
    · rcases ih with h | ⟨pre, j, post, h1, h2, h3⟩
      · left; intro x hx
        rcases List.mem_cons.1 hx with rfl | hx
        · exact ha
        · exact h x hx
      · right
        refine ⟨a :: pre, j, post, by simp [h1], ?_, h3⟩
        intro x hx
        rcases List.mem_cons.1 hx with rfl | hx
        · exact ha
        · exact h2 x hx
    · right; exact ⟨[], a, l, rfl, by simp, ha⟩

theorem pop_local_empty (p : ThreadPool) (tl : ThreadLocal) (h : p.ownQueue tl = []) :
    p.pop_task_from_local_queue tl = (none, p) := by
  unfold ThreadPool.ownQueue at h
  unfold ThreadPool.pop_task_from_local_queue
  cases hl : tl.m_local_work_queue with
  | none => rfl
  | some j => simp [hl] at h ⊢; simp [h, WorkStealQueue.try_pop]

theorem pop_local_cons (p : ThreadPool) (tl : ThreadLocal) (j : Nat) (t : FuncWrapper)
    (rest : WorkStealQueue) (hl : tl.m_local_work_queue = some j)
    (h : p.queueAt j = t :: rest) :
    p.pop_task_from_local_queue tl = (some t, { p with m_queues := p.m_queues.set j rest }) := by
  simp [ThreadPool.pop_task_from_local_queue, hl, h, WorkStealQueue.try_pop]

/-! ## C2: `run_pending_task` -/

theorem rpt_own (p : ThreadPool) (tl : ThreadLocal) (j : Nat) (t : FuncWrapper)
    (rest : WorkStealQueue) (hl : tl.m_local_work_queue = some j)
    (h : p.queueAt j = t :: rest) :
    p.run_pending_task tl =
      ({ p with m_queues := p.m_queues.set j rest, invoked := p.invoked ++ [t] }, tl) := by
  simp [ThreadPool.run_pending_task, pop_local_cons p tl j t rest hl h, ThreadPool.call]

theorem rpt_steal (p : ThreadPool) (tl : ThreadLocal) (hinit : p.m_init_finished = true)
    (hlen : p.m_queues.length = p.m_worker_num) (hown : p.ownQueue tl = [])
    (pre : List Nat) (j : Nat) (post : List Nat) (q : WorkStealQueue) (t : FuncWrapper)
    (hsplit : p.stealOrder tl = pre ++ j :: post)
    (hpre : ∀ x ∈ pre, p.queueAt x = []) (hj : p.queueAt j = q ++ [t]) :
    p.run_pending_task tl =
      ({ p with m_queues := p.m_queues.set j q, invoked := p.invoked ++ [t] }, tl) := by
  simp [ThreadPool.run_pending_task, pop_local_empty p tl hown,
    scan_hit p tl hinit hlen pre j post q t hsplit hpre hj, ThreadPool.call]

theorem rpt_pool (p : ThreadPool) (tl : ThreadLocal) (hinit : p.m_init_finished = true)
    (hlen : p.m_queues.length = p.m_worker_num) (hown : p.ownQueue tl = [])
    (he : ∀ x ∈ p.stealOrder tl, p.queueAt x = [])
    (t : FuncWrapper) (rest : ThreadSafeQueue) (hq : p.m_pool_work_queue = t :: rest) :
    p.run_pending_task tl =
      if t.is_stop_task then
        ({ p with m_pool_work_queue := rest }, { tl with m_thread_need_stop := true })
      else ({ p with m_pool_work_queue := rest, invoked := p.invoked ++ [t] }, tl) := by
  simp [ThreadPool.run_pending_task, pop_local_empty p tl hown, scan_none p tl hinit hlen he,
    ThreadPool.pop_task_from_pool_queue, hq, ThreadSafeQueue.try_pop, ThreadPool.call]

theorem rpt_idle (p : ThreadPool) (tl : ThreadLocal) (hinit : p.m_init_finished = true)
    (hlen : p.m_queues.length = p.m_worker_num) (hown : p.ownQueue tl = [])
    (he : ∀ x ∈ p.stealOrder tl, p.queueAt x = [])
    (hq : p.m_pool_work_queue = []) :
    p.run_pending_task tl = (p, tl) := by
  simp [ThreadPool.run_pending_task, pop_local_empty p tl hown, scan_none p tl hinit hlen he,
    ThreadPool.pop_task_from_pool_queue, hq, ThreadSafeQueue.try_pop]

theorem queueAt_mem (p : ThreadPool) (j : Nat) (h : p.queueAt j ≠ []) :
    p.queueAt j ∈ p.m_queues ∧ j < p.m_queues.length := by
  unfold ThreadPool.queueAt at h ⊢
  by_cases hj : j < p.m_queues.length
  · rw [List.getD_eq_getElem _ _ hj]
    exact ⟨List.getElem_mem _, hj⟩
  · rw [List.getD_eq_default _ _ (by omega)] at h
    exact absurd rfl h

theorem queued_set (p : ThreadPool) (j : Nat) (q : WorkStealQueue) (l : List FuncWrapper)
    (hj : j < p.m_queues.length) :
    ({ p with m_queues := p.m_queues.set j q, invoked := l } : ThreadPool).queued
        + (p.queueAt j).length = p.queued + q.length := by
  have := sum_map_set List.length p.m_queues j q [] hj
  simp only [ThreadPool.queued, ThreadPool.queueAt] at this ⊢
  omega

theorem mem_stealOrder_lt (p : ThreadPool) (tl : ThreadLocal) (j : Nat)
    (h : j ∈ p.stealOrder tl) : j < p.m_worker_num := by
  simp only [ThreadPool.stealOrder, List.mem_map, List.mem_range] at h
  obtain ⟨i, hi, rfl⟩ := h
  exact stealIndex_lt _ _ _ (by omega)

/-- One call removes at most one queued task and invokes at most one callable. -/
theorem rpt_at_most_one (p : ThreadPool) (tl : ThreadLocal)
    (hinit : p.m_init_finished = true) (hlen : p.m_queues.length = p.m_worker_num) :
    (p.run_pending_task tl).1.queued ≤ p.queued ∧
    p.queued ≤ (p.run_pending_task tl).1.queued + 1 ∧
    ∃ l, (p.run_pending_task tl).1.invoked = p.invoked ++ l ∧ l.length ≤ 1 := by
  by_cases hown : p.ownQueue tl = []
  · rcases first_failure_split (fun x => p.queueAt x = []) (p.stealOrder tl) with
      he | ⟨pre, j, post, hsplit, hpre, hj⟩
    · cases hq : p.m_pool_work_queue with
      | nil =>
        rw [rpt_idle p tl hinit hlen hown he hq]
        exact ⟨le_refl _, Nat.le_succ _, [], by simp, by simp⟩
      | cons t rest =>
        rw [rpt_pool p tl hinit hlen hown he t rest hq]
        cases t with
        | stop =>
          simp only [FuncWrapper.is_stop_task, if_true]
          refine ⟨?_, ?_, [], by simp, by simp⟩ <;>
            simp only [ThreadPool.queued, hq, List.length_cons] <;> omega
        | work f =>
          simp only [FuncWrapper.is_stop_task, Bool.false_eq_true, if_false]
          refine ⟨?_, ?_, [.work f], by simp, by simp⟩ <;>
            simp only [ThreadPool.queued, hq, List.length_cons] <;> omega
    · rcases List.eq_nil_or_concat (p.queueAt j) with h0 | ⟨q, t, hqt⟩
      · exact absurd h0 hj
      · rw [List.concat_eq_append] at hqt
        rw [rpt_steal p tl hinit hlen hown pre j post q t hsplit hpre hqt]
        dsimp only
        have hjn : j < p.m_queues.length := by
          rw [hlen]; exact mem_stealOrder_lt p tl j (by simp [hsplit])
        have := queued_set p j q (p.invoked ++ [t]) hjn
        rw [hqt] at this
        simp only [List.length_append, List.length_singleton] at this
        exact ⟨by omega, by omega, [t], rfl, by simp⟩
  · unfold ThreadPool.ownQueue at hown
    cases hl : tl.m_local_work_queue with
    | none => simp [hl] at hown
    | some j =>
      simp only [hl] at hown
      cases hq : p.queueAt j with
      | nil => exact absurd hq hown
      | cons t rest =>
        rw [rpt_own p tl j t rest hl hq]
        dsimp only
        have hjn : j < p.m_queues.length := (queueAt_mem p j hown).2
        have := queued_set p j rest (p.invoked ++ [t]) hjn
        rw [hq] at this
        simp only [List.length_cons] at this
        exact ⟨by omega, by omega, [t], rfl, by simp⟩

/-- C2. On a pool whose construction has finished, one call of `run_pending_task`
removes at most one task from all queues together and invokes at most one
callable. The task comes from the first source that has one, in the order: the
caller's own queue (front), then the first non-empty queue in the steal scan order
(back), then the shared overflow queue (front; a stop sentinel taken there is not
invoked and sets the caller's stop flag). When all are empty nothing is invoked and
the pool and the caller's thread-local state are unchanged. -/
theorem run_pending_task_tier_order (p : ThreadPool) (tl : ThreadLocal)
    (hinit : p.m_init_finished = true) (hlen : p.m_queues.length = p.m_worker_num) :
    ((p.run_pending_task tl).1.queued ≤ p.queued ∧
      p.queued ≤ (p.run_pending_task tl).1.queued + 1 ∧
      ∃ l, (p.run_pending_task tl).1.invoked = p.invoked ++ l ∧ l.length ≤ 1) ∧
    (∀ j t rest, tl.m_local_work_queue = some j → p.queueAt j = t :: rest →
      p.run_pending_task tl =
        ({ p with m_queues := p.m_queues.set j rest, invoked := p.invoked ++ [t] }, tl)) ∧
    (∀ pre j post q t, p.ownQueue tl = [] → p.stealOrder tl = pre ++ j :: post →
      (∀ x ∈ pre, p.queueAt x = []) → p.queueAt j = q ++ [t] →
      p.run_pending_task tl =
        ({ p with m_queues := p.m_queues.set j q, invoked := p.invoked ++ [t] }, tl)) ∧
    (∀ t rest, p.ownQueue tl = [] → (∀ x ∈ p.stealOrder tl, p.queueAt x = []) →
      p.m_pool_work_queue = t :: rest →
      p.run_pending_task tl =
        if t.is_stop_task then
          ({ p with m_pool_work_queue := rest }, { tl with m_thread_need_stop := true })
        else ({ p with m_pool_work_queue := rest, invoked := p.invoked ++ [t] }, tl)) ∧
    (p.ownQueue tl = [] → (∀ x ∈ p.stealOrder tl, p.queueAt x = []) →
      p.m_pool_work_queue = [] → p.run_pending_task tl = (p, tl)) :=
  ⟨rpt_at_most_one p tl hinit hlen,
   fun j t rest hl h => rpt_own p tl j t rest hl h,
   fun pre j post q t hown hsplit hpre hj =>
     rpt_steal p tl hinit hlen hown pre j post q t hsplit hpre hj,
   fun t rest hown he hq => rpt_pool p tl hinit hlen hown he t rest hq,
   fun hown he hq => rpt_idle p tl hinit hlen hown he hq⟩

/-! ## C8: the order of the steal scan -/

theorem stealIndex_eq (k i n : Nat) (hk : k < n) (hi : i < n) (hb : n ≤ 2 ^ 63) :
    stealIndex k i n = (k + 1 + i) % n := by
  have : k + i + 1 < SIZE_T_MOD := by
    have : (2 : Nat) ^ 64 = 2 * 2 ^ 63 := by norm_num
    simp only [SIZE_T_MOD]; omega
  simp only [stealIndex, Nat.mod_eq_of_lt this]
  congr 1; omega

theorem roundRobin_inj (k n i j : Nat) (hi : i < n) (hj : j < n)
    (h : (k + 1 + i) % n = (k + 1 + j) % n) : i = j := by
  have h1 : i ≡ j [MOD n] := Nat.ModEq.add_left_cancel' (k + 1) h
  have h2 : i % n = j % n := h1
  rwa [Nat.mod_eq_of_lt hi, Nat.mod_eq_of_lt hj] at h2

theorem roundRobin_nodup (k n : Nat) :
    ((List.range n).map (fun i => (k + 1 + i) % n)).Nodup := by
  refine (List.nodup_map_iff_inj_on (List.nodup_range n)).2 ?_
  intro i hi j hj h
  exact roundRobin_inj k n i j (List.mem_range.1 hi) (List.mem_range.1 hj) h

theorem roundRobin_mem (k n j : Nat) (hk : k < n) :
    j ∈ (List.range n).map (fun i => (k + 1 + i) % n) ↔ j < n := by
  constructor
  · intro h
    simp only [List.mem_map, List.mem_range] at h
    obtain ⟨i, -, rfl⟩ := h
    exact Nat.mod_lt _ (by omega)
  · intro hj
    simp only [List.mem_map, List.mem_range]
    refine ⟨(j + n - 1 - k) % n, Nat.mod_lt _ (by omega), ?_⟩
    rw [Nat.add_mod_mod]
    have : k + 1 + (j + n - 1 - k) = j + n := by omega
    rw [this, Nat.add_mod_right, Nat.mod_eq_of_lt hj]

theorem roundRobin_snoc (k n : Nat) (hk : k < n) :
    (List.range n).map (fun i => (k + 1 + i) % n)
      = (List.range (n - 1)).map (fun i => (k + 1 + i) % n) ++ [k] := by
  obtain ⟨m, rfl⟩ : ∃ m, n = m + 1 := ⟨n - 1, by omega⟩
  rw [List.range_succ, List.map_append]
  simp only [List.map_cons, List.map_nil, Nat.add_sub_cancel]
  congr 2
  have : k + 1 + m = k + (m + 1) := by omega
  rw [this, Nat.add_mod_right, Nat.mod_eq_of_lt hk]

theorem roundRobin_peers (k n : Nat) (hk : k < n) :
    k ∉ (List.range (n - 1)).map (fun i => (k + 1 + i) % n) := by
  intro h
  simp only [List.mem_map, List.mem_range] at h
  obtain ⟨i, hi, hik⟩ := h
  have hlast : (k + 1 + (n - 1)) % n = k := by
    have : k + 1 + (n - 1) = k + n := by omega
    rw [this, Nat.add_mod_right, Nat.mod_eq_of_lt hk]
  have := roundRobin_inj k n i (n - 1) (by omega) (by omega) (hik.trans hlast.symm)
  omega

theorem stealOrder_eq (p : ThreadPool) (tl : ThreadLocal)
    (hk : tl.m_index < p.m_worker_num) (hb : p.m_worker_num ≤ 2 ^ 63) :
    p.stealOrder tl = (List.range p.m_worker_num).map
      (fun i => (tl.m_index + 1 + i) % p.m_worker_num) := by
  unfold ThreadPool.stealOrder
  apply List.map_congr_left
  intro i hi
  exact stealIndex_eq _ _ _ hk (List.mem_range.1 hi) hb

/-- C8 as stated fails: with three workers, all queues empty and construction
finished, the scan of worker 1 probes the indices 2, 0 and then 1, its own queue;
it does not stop after the two peers. -/
theorem steal_scan_probes_own_queue :
    ((ThreadPool.fresh 3).pop_task_from_other_thread_queue
        { m_local_work_queue := some 1, m_index := 1, m_thread_need_stop := false }).probes
      = [2, 0, 1] ∧
    1 ∈ ((ThreadPool.fresh 3).pop_task_from_other_thread_queue
        { m_local_work_queue := some 1, m_index := 1, m_thread_need_stop := false }).probes ∧
    ((ThreadPool.fresh 3).pop_task_from_other_thread_queue
        { m_local_work_queue := some 1, m_index := 1, m_thread_need_stop := false }).probes
      ≠ [(1 + 1) % 3, (1 + 2) % 3] := by
  decide

/-- C8, amended. For `n ≤ 2^63` workers (so that `m_index + i + 1` does not wrap in
`size_t`), construction finished and own index `k < n` (hence `n ≥ 1`), the scan
order is
`(k+1) mod n, (k+2) mod n, ..., (k+n-1) mod n, k`: every peer exactly once in
round-robin order and then the caller's own queue `k` last; it contains every index
below `n` exactly once. When every steal fails the scan probes exactly this
sequence, returns no task and leaves the pool unchanged. When some queue in the
order is non-empty the scan probes the order up to and including the first such
index, takes the task at the back of that queue, and probes nothing further. -/
theorem steal_scan_order (p : ThreadPool) (tl : ThreadLocal)
    (hb : p.m_worker_num ≤ 2 ^ 63)
    (hk : tl.m_index < p.m_worker_num)
    (hinit : p.m_init_finished = true) (hlen : p.m_queues.length = p.m_worker_num) :
    p.stealOrder tl = (List.range (p.m_worker_num - 1)).map
        (fun i => (tl.m_index + 1 + i) % p.m_worker_num) ++ [tl.m_index] ∧
    tl.m_index ∉ (List.range (p.m_worker_num - 1)).map
        (fun i => (tl.m_index + 1 + i) % p.m_worker_num) ∧
    (p.stealOrder tl).Nodup ∧
    (∀ j, j ∈ p.stealOrder tl ↔ j < p.m_worker_num) ∧
    ((∀ x, x < p.m_worker_num → p.queueAt x = []) →
      p.pop_task_from_other_thread_queue tl =
        { task := none, pool := p, probes := p.stealOrder tl }) ∧
    (∀ pre j post, p.stealOrder tl = pre ++ j :: post →
      (∀ x ∈ pre, p.queueAt x = []) → p.queueAt j ≠ [] →
      (p.pop_task_from_other_thread_queue tl).probes = pre ++ [j] ∧
      (p.pop_task_from_other_thread_queue tl).task = (p.queueAt j).getLast? ∧
      (p.pop_task_from_other_thread_queue tl).pool =
        { p with m_queues := p.m_queues.set j (p.queueAt j).dropLast }) := by
  have ho := stealOrder_eq p tl hk hb
  refine ⟨?_, roundRobin_peers _ _ hk, ?_, ?_, ?_, ?_⟩
  · rw [ho]; exact roundRobin_snoc _ _ hk
  · rw [ho]; exact roundRobin_nodup _ _
  · intro j; rw [ho]; exact roundRobin_mem _ _ j hk
  · intro he
    exact scan_none p tl hinit hlen (fun x hx => he x (mem_stealOrder_lt p tl x hx))
  · intro pre j post hsplit hpre hj
    rcases List.eq_nil_or_concat (p.queueAt j) with h0 | ⟨q, t, hqt⟩
    · exact absurd h0 hj
    · rw [List.concat_eq_append] at hqt
      rw [scan_hit p tl hinit hlen pre j post q t hsplit hpre hqt, hqt]
      simp [List.getLast?_append, List.dropLast_concat]

/-! ## The constructor -/

theorem ctorLoop_none (k i : Nat) (p : ThreadPool) :
    ThreadPool.ctorLoop none k i p =
      { pool := { p with m_queues := p.m_queues ++ List.replicate k [],
                         m_init_finished := true },
        started := i + k, threw := false,
        events := (List.range' i k).flatMap (fun j => [Event.createQueue j, Event.spawn j])
          ++ [Event.setInitFinished] } := by
  induction k generalizing i p with
  | zero => simp [ThreadPool.ctorLoop]
  | succ k ih =>
    simp only [ThreadPool.ctorLoop, ih, List.range'_succ, List.replicate_succ]
    simp
    omega

theorem fresh_eq (n : Nat) :
    ThreadPool.fresh n =
      { m_done := false, m_init_finished := true, m_worker_num := n,
        m_pool_work_queue := [], m_queues := List.replicate n [], invoked := [],
        oob := false } := by
  simp [ThreadPool.fresh, ThreadPool.ctor, ctorLoop_none, ThreadPool.initial]

/-! ## C5: stop sentinels are never invoked -/

theorem forall_mem_set {α : Type} (P : α → Prop) (l : List α) (j : Nat) (a : α)
    (hl : ∀ x ∈ l, P x) (ha : P a) : ∀ x ∈ l.set j a, P x := by
  intro x hx
  rcases List.mem_or_eq_of_mem_set hx with h | h
  · exact hl x h
  · exact h ▸ ha

theorem good_fresh (n : Nat) : (ThreadPool.fresh n).Good := by
  rw [fresh_eq]
  refine ⟨?_, by simp, rfl, by simp⟩
  intro q hq
  rw [List.eq_of_mem_replicate hq]
  simp

theorem good_submit (p : ThreadPool) (tl : ThreadLocal) (f : Nat) (h : p.Good) :
    (p.submit tl f).Good := by
  obtain ⟨hq, hi, hinit, hlen⟩ := h
  unfold ThreadPool.submit
  cases tl.m_local_work_queue with
  | none => exact ⟨hq, hi, hinit, hlen⟩
  | some j =>
    refine ⟨?_, hi, hinit, by simpa using hlen⟩
    apply forall_mem_set (fun q => FuncWrapper.stop ∉ q) _ _ _ hq
    by_cases hj : p.queueAt j = []
    · simp [WorkStealQueue.push, hj]
    · have := hq _ (queueAt_mem p j hj).1
      simp [WorkStealQueue.push, this]

theorem good_join_push (p : ThreadPool) (h : p.Good) : p.join_push.Good := by
  obtain ⟨hq, hi, hinit, hlen⟩ := h
  rw [ThreadPool.join_push, joinLoop_spec]
  exact ⟨hq, hi, hinit, hlen⟩

theorem good_run_pending_task (p : ThreadPool) (tl : ThreadLocal) (h : p.Good) :
    (p.run_pending_task tl).1.Good := by
  obtain ⟨hq, hi, hinit, hlen⟩ := h
  by_cases hown : p.ownQueue tl = []
  · rcases first_failure_split (fun x => p.queueAt x = []) (p.stealOrder tl) with
      he | ⟨pre, j, post, hsplit, hpre, hj⟩
    · cases hpq : p.m_pool_work_queue with
      | nil =>
        rw [rpt_idle p tl hinit hlen hown he hpq]
        exact ⟨hq, hi, hinit, hlen⟩
      | cons t rest =>
        rw [rpt_pool p tl hinit hlen hown he t rest hpq]
        cases t with
        | stop => exact ⟨hq, hi, hinit, hlen⟩
        | work f =>
          refine ⟨hq, ?_, hinit, hlen⟩
          simpa [FuncWrapper.is_stop_task] using hi
    · rcases List.eq_nil_or_concat (p.queueAt j) with h0 | ⟨q, t, hqt⟩
      · exact absurd h0 hj
      · rw [List.concat_eq_append] at hqt
        rw [rpt_steal p tl hinit hlen hown pre j post q t hsplit hpre hqt]
        have hm := hq _ (queueAt_mem p j hj).1
        rw [hqt] at hm
        simp only [List.mem_append, List.mem_singleton, not_or] at hm
        refine ⟨?_, ?_, hinit, by simpa using hlen⟩
        · exact forall_mem_set (fun q => FuncWrapper.stop ∉ q) _ _ _ hq hm.1
        · simp only [List.mem_append, List.mem_singleton, not_or]
          exact ⟨hi, hm.2⟩
  · unfold ThreadPool.ownQueue at hown
    cases hl : tl.m_local_work_queue with
    | none => simp [hl] at hown
    | some j =>
      simp only [hl] at hown
      cases hjq : p.queueAt j with
      | nil => exact absurd hjq hown
      | cons t rest =>
        rw [rpt_own p tl j t rest hl hjq]
        have hm := hq _ (queueAt_mem p j hown).1
        rw [hjq] at hm
        simp only [List.mem_cons, not_or] at hm
        refine ⟨?_, ?_, hinit, by simpa using hlen⟩
        · exact forall_mem_set (fun q => FuncWrapper.stop ∉ q) _ _ _ hq hm.2
        · simp only [List.mem_append, List.mem_singleton, not_or]
          exact ⟨hi, hm.1⟩

theorem good_applyAll (cs : List Call) (p : ThreadPool) (h : p.Good) :
    (p.applyAll cs).Good := by
  induction cs generalizing p with
  | nil => exact h
  | cons c cs ih =>
    apply ih
    cases c with
    | submit tl f => exact good_submit p tl f h
    | run_pending_task tl => exact good_run_pending_task p tl h
    | join => exact good_join_push p h

/-- C5. In every state reachable from a freshly constructed pool by any sequence of
`submit`, `run_pending_task` and `join` calls made with any thread-local states, no
per-worker queue contains a stop sentinel and no sentinel was ever invoked. When
`run_pending_task` reaches the shared queue (own queue and every scanned queue
empty) and pops a sentinel, it invokes nothing and sets the caller's stop flag; when
it pops a non-sentinel there, that task is invoked and the thread-local state,
including the stop flag, is unchanged. -/
theorem sentinel_never_invoked (n : Nat) (cs : List Call) :
    (∀ q ∈ ((ThreadPool.fresh n).applyAll cs).m_queues, FuncWrapper.stop ∉ q) ∧
    FuncWrapper.stop ∉ ((ThreadPool.fresh n).applyAll cs).invoked ∧
    (∀ (tl : ThreadLocal) (rest : ThreadSafeQueue),
      ((ThreadPool.fresh n).applyAll cs).ownQueue tl = [] →
      (∀ x ∈ ((ThreadPool.fresh n).applyAll cs).stealOrder tl,
        ((ThreadPool.fresh n).applyAll cs).queueAt x = []) →
      ((ThreadPool.fresh n).applyAll cs).m_pool_work_queue = .stop :: rest →
      ((ThreadPool.fresh n).applyAll cs).run_pending_task tl =
        ({ (ThreadPool.fresh n).applyAll cs with m_pool_work_queue := rest },
         { tl with m_thread_need_stop := true })) ∧
    (∀ (tl : ThreadLocal) (f : Nat) (rest : ThreadSafeQueue),
      ((ThreadPool.fresh n).applyAll cs).ownQueue tl = [] →
      (∀ x ∈ ((ThreadPool.fresh n).applyAll cs).stealOrder tl,
        ((ThreadPool.fresh n).applyAll cs).queueAt x = []) →
      ((ThreadPool.fresh n).applyAll cs).m_pool_work_queue = .work f :: rest →
      ((ThreadPool.fresh n).applyAll cs).run_pending_task tl =
        ({ (ThreadPool.fresh n).applyAll cs with
             m_pool_work_queue := rest,
             invoked := ((ThreadPool.fresh n).applyAll cs).invoked ++ [.work f] }, tl)) := by
  obtain ⟨hq, hi, hinit, hlen⟩ := good_applyAll cs _ (good_fresh n)
  refine ⟨hq, hi, ?_, ?_⟩
  · intro tl rest hown he hpq
    rw [rpt_pool _ tl hinit hlen hown he .stop rest hpq]
    simp [FuncWrapper.is_stop_task]
  · intro tl f rest hown he hpq
    rw [rpt_pool _ tl hinit hlen hown he (.work f) rest hpq]
    simp [FuncWrapper.is_stop_task]

/-! ## C7 and C6: the order of construction events -/

theorem ctorLoop_events_mem (failAt : Option Nat) (k i : Nat) (p : ThreadPool) (e : Event)
    (h : e ∈ (ThreadPool.ctorLoop failAt k i p).events) :
    e = .setInitFinished ∨ e = .setDone ∨ e = .rethrow ∨
      ∃ j, i ≤ j ∧ j < i + k ∧ (e = .createQueue j ∨ e = .spawn j ∨ e = .spawnFailed j) := by
  induction k generalizing i p with
  | zero => simp [ThreadPool.ctorLoop] at h; simp [h]
  | succ k ih =>
    simp only [ThreadPool.ctorLoop] at h
    split at h
    · simp only [List.mem_cons, List.mem_singleton, List.not_mem_nil, or_false] at h
      rcases h with h | h | h | h
      · exact Or.inr (Or.inr (Or.inr ⟨i, le_refl _, by omega, Or.inl h⟩))
      · exact Or.inr (Or.inr (Or.inr ⟨i, le_refl _, by omega, Or.inr (Or.inr h)⟩))
      · exact Or.inr (Or.inl h)
      · exact Or.inr (Or.inr (Or.inl h))
    · simp only [List.mem_cons] at h
      rcases h with h | h | h
      · exact Or.inr (Or.inr (Or.inr ⟨i, le_refl _, by omega, Or.inl h⟩))
      · exact Or.inr (Or.inr (Or.inr ⟨i, le_refl _, by omega, Or.inr (Or.inl h)⟩))
      · rcases ih (i + 1) _ h with h | h | h | ⟨j, h1, h2, h3⟩
        · exact Or.inl h
        · exact Or.inr (Or.inl h)
        · exact Or.inr (Or.inr (Or.inl h))
        · exact Or.inr (Or.inr (Or.inr ⟨j, by omega, by omega, h3⟩))

theorem ctorLoop_queue_before_spawn (failAt : Option Nat) (k i : Nat) (p : ThreadPool)
    (a b : Nat) (hb : Event.spawn b ∈ (ThreadPool.ctorLoop failAt k i p).events)
    (hia : i ≤ a) (hab : a ≤ b) :
    Event.createQueue a ∈ (ThreadPool.ctorLoop failAt k i p).events ∧
    (ThreadPool.ctorLoop failAt k i p).events.indexOf (Event.createQueue a) <
      (ThreadPool.ctorLoop failAt k i p).events.indexOf (Event.spawn b) := by
  induction k generalizing i p with
  | zero => simp [ThreadPool.ctorLoop] at hb
  | succ k ih =>
    simp only [ThreadPool.ctorLoop] at hb ⊢
    split
    · rename_i hf
      simp [hf] at hb
    · rename_i hf
      simp only [hf, if_false, List.mem_cons] at hb
      by_cases hai : a = i
      · subst hai
        refine ⟨by simp, ?_⟩
        rw [List.indexOf_cons_self, List.indexOf_cons_ne _ (by simp)]
        exact Nat.succ_pos _
      · have hbi : b ≠ i := by omega
        rcases hb with hb | hb | hb
        · simp at hb
        · simp at hb; exact absurd hb hbi
        · obtain ⟨h1, h2⟩ := ih (i + 1) _ hb (by omega)
          refine ⟨by simp [h1], ?_⟩
          rw [List.indexOf_cons_ne _ (by simpa using Ne.symm hai),
            List.indexOf_cons_ne _ (by simp),
            List.indexOf_cons_ne _ (by simp),
            List.indexOf_cons_ne _ (by simpa using Ne.symm hbi)]
          omega

theorem ctorLoop_spawn_before_later_queue (failAt : Option Nat) (k i : Nat) (p : ThreadPool)
    (a b : Nat) (hb : Event.createQueue b ∈ (ThreadPool.ctorLoop failAt k i p).events)
    (hia : i ≤ a) (hab : a < b) :
    Event.spawn a ∈ (ThreadPool.ctorLoop failAt k i p).events ∧
    (ThreadPool.ctorLoop failAt k i p).events.indexOf (Event.spawn a) <
      (ThreadPool.ctorLoop failAt k i p).events.indexOf (Event.createQueue b) := by
  induction k generalizing i p with
  | zero => simp [ThreadPool.ctorLoop] at hb
  | succ k ih =>
    simp only [ThreadPool.ctorLoop] at hb ⊢
    have hbi : b ≠ i := by omega
    split
    · rename_i hf
      simp [hf] at hb
      exact absurd hb hbi
    · rename_i hf
      simp only [hf, if_false, List.mem_cons] at hb
      rcases hb with hb | hb | hb
      · simp at hb; exact absurd hb hbi
      · simp at hb
      · by_cases hai : a = i
        · subst hai
          refine ⟨by simp, ?_⟩
          rw [List.indexOf_cons_ne _ (by simp), List.indexOf_cons_self,
            List.indexOf_cons_ne _ (by simpa using Ne.symm hbi),
            List.indexOf_cons_ne _ (by simp)]
          omega
        · obtain ⟨h1, h2⟩ := ih (i + 1) _ hb (by omega)
          refine ⟨by simp [h1], ?_⟩
          rw [List.indexOf_cons_ne _ (by simp),
            List.indexOf_cons_ne _ (by simpa using Ne.symm hai),
            List.indexOf_cons_ne _ (by simpa using Ne.symm hbi),
            List.indexOf_cons_ne _ (by simp)]
          omega

/-- C7 as stated fails: for two workers the constructor performs "create queue 0,
spawn worker 0, create queue 1, spawn worker 1"; queue 1 is created after worker 0
has been spawned, not before. -/
theorem ctor_spawns_before_all_queues_exist :
    (ThreadPool.ctor 2 none).events =
      [.createQueue 0, .spawn 0, .createQueue 1, .spawn 1, .setInitFinished] ∧
    precedes (.createQueue 1) (.spawn 0) (ThreadPool.ctor 2 none).events = false ∧
    precedes (.spawn 0) (.createQueue 1) (ThreadPool.ctor 2 none).events = true := by
  decide

/-- C7, amended. For every worker count `n` (and whether or not some thread creation
fails), in the sequence of construction events every spawned worker `i` is spawned
after the queues `0..i` have been created and recorded: every "create queue j" event
with `j ≤ i` precedes the "spawn worker i" event. The queues with a larger index do
not exist yet at that point: every "create queue j" event with `i < j` comes after
"spawn worker i". When no creation fails the sequence is "create queue 0, spawn 0,
create queue 1, spawn 1, ..., create queue n-1, spawn n-1, set init-finished". -/
theorem ctor_queue_before_own_worker (n : Nat) (failAt : Option Nat) :
    (∀ i j, Event.spawn i ∈ (ThreadPool.ctor n failAt).events → j ≤ i →
      precedes (.createQueue j) (.spawn i) (ThreadPool.ctor n failAt).events = true) ∧
    (∀ i j, Event.createQueue j ∈ (ThreadPool.ctor n failAt).events → i < j →
      precedes (.spawn i) (.createQueue j) (ThreadPool.ctor n failAt).events = true) ∧
    (ThreadPool.ctor n none).events =
      (List.range n).flatMap (fun j => [Event.createQueue j, Event.spawn j])
        ++ [Event.setInitFinished] := by
  refine ⟨?_, ?_, ?_⟩
  · intro i j hi hji
    have := ctorLoop_queue_before_spawn failAt n 0 (ThreadPool.initial n) j i hi (by omega) hji
    simpa [precedes, ThreadPool.ctor] using this
  · intro i j hj hij
    have := ctorLoop_spawn_before_later_queue failAt n 0 (ThreadPool.initial n) i j hj
      (by omega) hij
    simpa [precedes, ThreadPool.ctor] using this
  · simp [ThreadPool.ctor, ctorLoop_none, List.range_eq_range']

/-- Witness for C7 (amended) on a pool of three workers: queue 1 is created before
worker 2 is spawned. -/
theorem ctor_queue_before_own_worker_witness :
    precedes (.createQueue 1) (.spawn 2) (ThreadPool.ctor 3 none).events = true :=
  (ctor_queue_before_own_worker 3 none).1 2 1 (by decide) (by decide)

theorem ctorLoop_no_join (failAt : Option Nat) (k i : Nat) (p : ThreadPool) (j : Nat) :
    Event.joinThread j ∉ (ThreadPool.ctorLoop failAt k i p).events := by
  intro h
  rcases ctorLoop_events_mem failAt k i p _ h with h | h | h | ⟨_, _, _, h | h | h⟩ <;>
    simp at h

/-- C6, evaluated on the constructor. With two workers and the creation of thread 1
failing, the constructor creates queue 0, starts worker 0, creates queue 1, fails to
create thread 1, sets the done flag and rethrows: it leaves with the flag set and
the failure propagated, but worker 0, which was started, is never joined. The
destructor is the path that joins the threads. -/
theorem ctor_failure_joins_no_thread :
    (ThreadPool.ctor 2 (some 1)).events =
      [.createQueue 0, .spawn 0, .createQueue 1, .spawnFailed 1, .setDone, .rethrow] ∧
    (ThreadPool.ctor 2 (some 1)).threw = true ∧
    (ThreadPool.ctor 2 (some 1)).pool.m_done = true ∧
    (ThreadPool.ctor 2 (some 1)).started = 1 ∧
    Event.joinThread 0 ∉ (ThreadPool.ctor 2 (some 1)).events ∧
    Event.joinThread 0 ∈ (ThreadPool.fresh 2).dtor.2 := by
  decide

/-! ## The interleaving layer: one step of a worker thread -/

theorem getD_append_nil {α : Type} (l : List (List α)) (x : Nat) :
    (l ++ [[]]).getD x [] = l.getD x [] := by
  rcases Nat.lt_trichotomy x l.length with h | h | h
  · rw [List.getD_eq_getElem _ _ (by simp; omega), List.getD_eq_getElem _ _ h,
      List.getElem_append_left h]
  · rw [List.getD_eq_default l _ (by omega)]
    subst h
    simp [List.getD_eq_getElem?_getD]
  · rw [List.getD_eq_default l _ (by omega), List.getD_eq_default _ _ (by simp; omega)]

theorem sum_map_set_of_get {α : Type} (g : α → Nat) (l : List α) (j : Nat) (a b : α)
    (h : l[j]? = some b) :
    ((l.set j a).map g).sum + g b = (l.map g).sum + g a := by
  have hj : j < l.length := (List.getElem?_eq_some_iff.1 h).1
  have := sum_map_set g l j a b hj
  rwa [List.getD_eq_getElem?_getD, h] at this

theorem pop_local_cases (p : ThreadPool) (tl : ThreadLocal) :
    (p.ownQueue tl = [] ∧ p.pop_task_from_local_queue tl = (none, p)) ∨
    ∃ j t rest, tl.m_local_work_queue = some j ∧ p.queueAt j = t :: rest ∧
      p.pop_task_from_local_queue tl =
        (some t, { p with m_queues := p.m_queues.set j rest }) := by
  by_cases hown : p.ownQueue tl = []
  · exact Or.inl ⟨hown, pop_local_empty p tl hown⟩
  · right
    unfold ThreadPool.ownQueue at hown
    cases hl : tl.m_local_work_queue with
    | none => simp [hl] at hown
    | some j =>
      simp only [hl] at hown
      cases hq : p.queueAt j with
      | nil => exact absurd hq hown
      | cons t rest => exact ⟨j, t, rest, rfl, hq, pop_local_cons p tl j t rest hl hq⟩

theorem steal_at_cases (p : ThreadPool) (j : Nat) :
    (p.m_queues.length ≤ j ∧ p.steal_at j = (none, { p with oob := true })) ∨
    (j < p.m_queues.length ∧ p.queueAt j = [] ∧ p.steal_at j = (none, p)) ∨
    ∃ q t, j < p.m_queues.length ∧ p.queueAt j = q ++ [t] ∧
      p.steal_at j = (some t, { p with m_queues := p.m_queues.set j q }) := by
  by_cases hj : j < p.m_queues.length
  · right
    rcases List.eq_nil_or_concat (p.queueAt j) with h0 | ⟨q, t, hqt⟩
    · exact Or.inl ⟨hj, h0, steal_at_empty p j hj h0⟩
    · rw [List.concat_eq_append] at hqt
      exact Or.inr ⟨q, t, hj, hqt, steal_at_concat p j q t hj hqt⟩
  · left
    exact ⟨by omega, by simp [ThreadPool.steal_at, hj]⟩

theorem workerStep_cases (p : ThreadPool) (buf : Nat) (w : Worker) :
    (w.pc = .entry ∧ workerStep p buf w =
      (p, { w with pc := .entryRead buf,
                   tl := { w.tl with m_index := w.arg, m_thread_need_stop := false } })) ∨
    (w.pc = .entryRead buf ∧ workerStep p buf w =
      ({ p with oob := p.oob || decide (p.m_queues.length ≤ w.tl.m_index) },
       { w with pc := .loopHead,
                tl := { w.tl with m_local_work_queue := some w.tl.m_index } })) ∨
    (∃ base, w.pc = .entryRead base ∧ base ≠ buf ∧
      workerStep p buf w = (p, { w with pc := .fault })) ∨
    (w.pc = .fault ∧ workerStep p buf w = (p, w)) ∨
    (w.pc = .loopHead ∧ w.tl.m_thread_need_stop = false ∧ p.m_done = false ∧
      workerStep p buf w = (p, { w with pc := .tier1 })) ∨
    (w.pc = .loopHead ∧ (w.tl.m_thread_need_stop = true ∨ p.m_done = true) ∧
      workerStep p buf w = (p, { w with pc := .exited })) ∨
    (w.pc = .tier1 ∧ p.ownQueue w.tl = [] ∧
      workerStep p buf w = (p, { w with pc := .initCheck })) ∨
    (∃ j t rest, w.pc = .tier1 ∧ w.tl.m_local_work_queue = some j ∧
      p.queueAt j = t :: rest ∧
      workerStep p buf w =
        ({ p with m_queues := p.m_queues.set j rest }, { w with pc := .call t })) ∨
    (w.pc = .initCheck ∧ p.m_init_finished = false ∧
      workerStep p buf w = (p, { w with pc := .tier3 })) ∨
    (w.pc = .initCheck ∧ p.m_init_finished = true ∧
      workerStep p buf w = (p, { w with pc := .tier2 0 })) ∨
    (∃ i, w.pc = .tier2 i ∧ p.m_worker_num ≤ i ∧
      workerStep p buf w = (p, { w with pc := .tier3 })) ∨
    (∃ i, w.pc = .tier2 i ∧ i < p.m_worker_num ∧
      p.m_queues.length ≤ stealIndex w.tl.m_index i p.m_worker_num ∧
      workerStep p buf w = ({ p with oob := true }, { w with pc := .tier2 (i + 1) })) ∨
    (∃ i, w.pc = .tier2 i ∧ i < p.m_worker_num ∧
      stealIndex w.tl.m_index i p.m_worker_num < p.m_queues.length ∧
      p.queueAt (stealIndex w.tl.m_index i p.m_worker_num) = [] ∧
      workerStep p buf w = (p, { w with pc := .tier2 (i + 1) })) ∨
    (∃ i q t, w.pc = .tier2 i ∧ i < p.m_worker_num ∧
      stealIndex w.tl.m_index i p.m_worker_num < p.m_queues.length ∧
      p.queueAt (stealIndex w.tl.m_index i p.m_worker_num) = q ++ [t] ∧
      workerStep p buf w =
        ({ p with m_queues :=
             p.m_queues.set (stealIndex w.tl.m_index i p.m_worker_num) q },
         { w with pc := .call t })) ∨
    (w.pc = .tier3 ∧ p.m_pool_work_queue = [] ∧
      workerStep p buf w = (p, { w with pc := .loopHead })) ∨
    (∃ rest, w.pc = .tier3 ∧ p.m_pool_work_queue = .stop :: rest ∧
      workerStep p buf w =
        ({ p with m_pool_work_queue := rest },
         { w with pc := .loopHead, tl := { w.tl with m_thread_need_stop := true },
                  stops := w.stops + 1 })) ∨
    (∃ f rest, w.pc = .tier3 ∧ p.m_pool_work_queue = .work f :: rest ∧
      workerStep p buf w =
        ({ p with m_pool_work_queue := rest }, { w with pc := .call (.work f) })) ∨
    (∃ t, w.pc = .call t ∧ workerStep p buf w = (p.call t, { w with pc := .loopHead })) ∨
    (w.pc = .exited ∧ workerStep p buf w = (p, w)) := by
  rcases w with ⟨pc, arg, tl, stops⟩
  cases pc with
  | entry => left; exact ⟨rfl, rfl⟩
  | entryRead base =>
    right
    by_cases hb : base = buf
    · left; subst hb; exact ⟨rfl, by simp [workerStep]⟩
    · right; left; exact ⟨base, rfl, hb, by simp [workerStep, hb]⟩
  | fault => right; right; right; left; exact ⟨rfl, rfl⟩
  | loopHead =>
    right; right; right; right
    by_cases h : tl.m_thread_need_stop = false ∧ p.m_done = false
    · left
      exact ⟨rfl, h.1, h.2, by simp [workerStep, h.1, h.2]⟩
    · right; left
      have h' : tl.m_thread_need_stop = true ∨ p.m_done = true := by
        cases h1 : tl.m_thread_need_stop <;> cases h2 : p.m_done <;> simp_all
      refine ⟨rfl, h', ?_⟩
      rcases h' with h' | h' <;> simp [workerStep, h']
  | tier1 =>
    right; right; right; right; right; right
    rcases pop_local_cases p tl with ⟨h1, h2⟩ | ⟨j, t, rest, h1, h2, h3⟩
    · left
      exact ⟨rfl, h1, by simp [workerStep, h2]⟩
    · right; left
      exact ⟨j, t, rest, rfl, h1, h2, by simp [workerStep, h3]⟩
  | initCheck =>
    right; right; right; right; right; right; right; right
    cases h : p.m_init_finished with
    | false =>
      left
      exact ⟨rfl, rfl, by simp [workerStep, h]⟩
    | true =>
      right; left
      exact ⟨rfl, rfl, by simp [workerStep, h]⟩
  | tier2 i =>
    right; right; right; right; right; right; right; right; right; right
    by_cases hi : i < p.m_worker_num
    · right
      rcases steal_at_cases p (stealIndex tl.m_index i p.m_worker_num) with
        ⟨h1, h2⟩ | ⟨h1, h2, h3⟩ | ⟨q, t, h1, h2, h3⟩
      · left; exact ⟨i, rfl, hi, h1, by simp [workerStep, hi, h2]⟩
      · right; left; exact ⟨i, rfl, hi, h1, h2, by simp [workerStep, hi, h3]⟩
      · right; right; left; exact ⟨i, q, t, rfl, hi, h1, h2, by simp [workerStep, hi, h3]⟩
    · left; exact ⟨i, rfl, by omega, by simp [workerStep, hi]⟩
  | tier3 =>
    right; right; right; right; right; right; right; right; right; right; right; right
    right; right
    cases h : p.m_pool_work_queue with
    | nil =>
      left
      exact ⟨rfl, rfl, by
        simp [workerStep, ThreadPool.pop_task_from_pool_queue, h, ThreadSafeQueue.try_pop]⟩
    | cons t rest =>
      right
      cases t with
      | stop =>
        left
        exact ⟨rest, rfl, rfl, by
          simp [workerStep, ThreadPool.pop_task_from_pool_queue, h, ThreadSafeQueue.try_pop,
            FuncWrapper.is_stop_task]⟩
      | work f =>
        right; left
        exact ⟨f, rest, rfl, rfl, by
          simp [workerStep, ThreadPool.pop_task_from_pool_queue, h, ThreadSafeQueue.try_pop,
            FuncWrapper.is_stop_task]⟩
  | call t =>
    right; right; right; right; right; right; right; right; right; right; right; right
    right; right; right; right; right; left
    exact ⟨t, rfl, rfl⟩
  | exited =>
    right; right; right; right; right; right; right; right; right; right; right; right
    right; right; right; right; right; right
    exact ⟨rfl, rfl⟩

/-! ## `run_pending_task` on a pool under construction or constructed -/

theorem scan_not_started (p : ThreadPool) (tl : ThreadLocal)
    (hinit : p.m_init_finished = false) :
    p.pop_task_from_other_thread_queue tl = { task := none, pool := p, probes := [] } := by
  simp [ThreadPool.pop_task_from_other_thread_queue, hinit]

/-- The possible outcomes of `run_pending_task`: a task from the own queue, a stolen
task, a stop sentinel or a task from the shared queue, or nothing. -/
theorem rpt_cases (p : ThreadPool) (tl : ThreadLocal)
    (hfin : p.m_init_finished = true → p.m_queues.length = p.m_worker_num) :
    (∃ j t rest, tl.m_local_work_queue = some j ∧ p.queueAt j = t :: rest ∧
      p.run_pending_task tl =
        ({ p with m_queues := p.m_queues.set j rest, invoked := p.invoked ++ [t] }, tl)) ∨
    (∃ j q t, p.ownQueue tl = [] ∧ p.queueAt j = q ++ [t] ∧
      p.run_pending_task tl =
        ({ p with m_queues := p.m_queues.set j q, invoked := p.invoked ++ [t] }, tl)) ∨
    (∃ rest, p.ownQueue tl = [] ∧ p.m_pool_work_queue = .stop :: rest ∧
      p.run_pending_task tl =
        ({ p with m_pool_work_queue := rest }, { tl with m_thread_need_stop := true })) ∨
    (∃ f rest, p.ownQueue tl = [] ∧ p.m_pool_work_queue = .work f :: rest ∧
      p.run_pending_task tl =
        ({ p with m_pool_work_queue := rest, invoked := p.invoked ++ [.work f] }, tl)) ∨
    p.run_pending_task tl = (p, tl) := by
  by_cases hown : p.ownQueue tl = []
  · right
    by_cases hinit : p.m_init_finished = true
    · have hlen := hfin hinit
      rcases first_failure_split (fun x => p.queueAt x = []) (p.stealOrder tl) with
        he | ⟨pre, j, post, hsplit, hpre, hj⟩
      · right
        cases hpq : p.m_pool_work_queue with
        | nil => right; right; exact rpt_idle p tl hinit hlen hown he hpq
        | cons t rest =>
          have := rpt_pool p tl hinit hlen hown he t rest hpq
          cases t with
          | stop => left; exact ⟨rest, hown, rfl, by simpa [FuncWrapper.is_stop_task] using this⟩
          | work f =>
            right; left
            exact ⟨f, rest, hown, rfl, by simpa [FuncWrapper.is_stop_task] using this⟩
      · left
        rcases List.eq_nil_or_concat (p.queueAt j) with h0 | ⟨q, t, hqt⟩
        · exact absurd h0 hj
        · rw [List.concat_eq_append] at hqt
          exact ⟨j, q, t, hown, hqt, rpt_steal p tl hinit hlen hown pre j post q t hsplit hpre hqt⟩
    · have hinit : p.m_init_finished = false := by simpa using hinit
      right
      cases hpq : p.m_pool_work_queue with
      | nil =>
        right; right
        simp [ThreadPool.run_pending_task, pop_local_empty p tl hown,
          scan_not_started p tl hinit, ThreadPool.pop_task_from_pool_queue, hpq,
          ThreadSafeQueue.try_pop]
      | cons t rest =>
        cases t with
        | stop =>
          left
          refine ⟨rest, hown, rfl, ?_⟩
          simp [ThreadPool.run_pending_task, pop_local_empty p tl hown,
            scan_not_started p tl hinit, ThreadPool.pop_task_from_pool_queue, hpq,
            ThreadSafeQueue.try_pop, FuncWrapper.is_stop_task]
        | work f =>
          right; left
          refine ⟨f, rest, hown, rfl, ?_⟩
          simp [ThreadPool.run_pending_task, pop_local_empty p tl hown,
            scan_not_started p tl hinit, ThreadPool.pop_task_from_pool_queue, hpq,
            ThreadSafeQueue.try_pop, FuncWrapper.is_stop_task, ThreadPool.call]
  · left
    unfold ThreadPool.ownQueue at hown
    cases hl : tl.m_local_work_queue with
    | none => simp [hl] at hown
    | some j =>
      simp only [hl] at hown
      cases hq : p.queueAt j with
      | nil => exact absurd hq hown
      | cons t rest => exact ⟨j, t, rest, rfl, hq, rpt_own p tl j t rest hl hq⟩

/-! ## The interleaving layer: the invariant -/

theorem Worker.Ok.mono {p p' : ThreadPool} {i : Nat} {w : Worker} (h : w.Ok p i)
    (hq : p.queueAt i = [] → p'.queueAt i = [])
    (hinit : p.m_init_finished = true → p'.m_init_finished = true)
    (hdone : p.m_done = true → p'.m_done = true) : w.Ok p' i := by
  obtain ⟨h1, h2, h3, h5⟩ := h
  refine ⟨h1, h2, h3, ?_⟩
  rcases w with ⟨pc, arg, tl, stops⟩
  cases pc with
  | entry => exact h5
  | entryRead b => exact h5
  | fault => trivial
  | loopHead => trivial
  | tier1 => exact h5
  | initCheck => exact ⟨h5.1, hq h5.2⟩
  | tier2 i => exact ⟨h5.1, hq h5.2.1, hinit h5.2.2⟩
  | tier3 => exact ⟨h5.1, hq h5.2⟩
  | call t => exact h5
  | exited => exact h5.imp id hdone

theorem queueAt_set_nil (p : ThreadPool) (j x : Nat) (q : WorkStealQueue)
    (l : List FuncWrapper) (hj : p.queueAt j ≠ []) (hx : p.queueAt x = []) :
    ({ p with m_queues := p.m_queues.set j q, invoked := l } : ThreadPool).queueAt x = [] := by
  have hne : x ≠ j := fun h => hj (h ▸ hx)
  simp only [ThreadPool.queueAt] at hx ⊢
  rw [getD_set_ne _ _ _ _ _ hne]; exact hx

theorem workerStep_inv (n : Nat) (p : ThreadPool) (buf : Nat) (i : Nat) (w : Worker)
    (hn : p.m_worker_num = n) (hoob : p.oob = false) (hi : i < p.m_queues.length)
    (hfin : p.m_init_finished = true → p.m_queues.length = n)
    (hok : w.Ok p i) (hq : ∀ q ∈ p.m_queues, FuncWrapper.stop ∉ q)
    (hinv : FuncWrapper.stop ∉ p.invoked) :
    (workerStep p buf w).1.m_done = p.m_done ∧
    (workerStep p buf w).1.m_init_finished = p.m_init_finished ∧
    (workerStep p buf w).1.m_worker_num = p.m_worker_num ∧
    (workerStep p buf w).1.m_queues.length = p.m_queues.length ∧
    (workerStep p buf w).1.oob = false ∧
    (∀ x, p.queueAt x = [] → (workerStep p buf w).1.queueAt x = []) ∧
    (workerStep p buf w).2.Ok (workerStep p buf w).1 i ∧
    (∀ q ∈ (workerStep p buf w).1.m_queues, FuncWrapper.stop ∉ q) ∧
    FuncWrapper.stop ∉ (workerStep p buf w).1.invoked ∧
    (workerStep p buf w).1.m_pool_work_queue.count .stop + (workerStep p buf w).2.stops =
      p.m_pool_work_queue.count .stop + w.stops := by
  obtain ⟨harg, hstops, hloc, hpcok⟩ := hok
  rcases workerStep_cases p buf w with
    ⟨hpc, hr⟩ | ⟨hpc, hr⟩ | ⟨base, hpc, -, hr⟩ | ⟨hpc, hr⟩ |
    ⟨hpc, h1, h2, hr⟩ | ⟨hpc, h1, hr⟩ | ⟨hpc, h1, hr⟩ |
    ⟨j, t, rest, hpc, h1, h2, hr⟩ | ⟨hpc, h1, hr⟩ | ⟨hpc, h1, hr⟩ | ⟨k, hpc, h1, hr⟩ |
    ⟨k, hpc, h1, h2, hr⟩ | ⟨k, hpc, h1, h2, h3, hr⟩ | ⟨k, q, t, hpc, h1, h2, h3, hr⟩ |
    ⟨hpc, h1, hr⟩ | ⟨rest, hpc, h1, hr⟩ | ⟨f, rest, hpc, h1, hr⟩ | ⟨t, hpc, hr⟩ | ⟨hpc, hr⟩
  all_goals rw [hr]
  all_goals simp only [hpc] at hpcok hloc
  · -- entry
    have hns : w.tl.m_thread_need_stop = false := by rw [hpcok]; rfl
    refine ⟨rfl, rfl, rfl, rfl, hoob, fun x hx => hx, ?_, hq, hinv, rfl⟩
    refine ⟨harg, ?_, fun h => by simp [Pc.inLoop] at h, harg, rfl⟩
    simpa [hns] using hstops
  · -- entryRead, buffer still valid
    have hlt : ¬ p.m_queues.length ≤ w.tl.m_index := by rw [hpcok.1]; omega
    refine ⟨rfl, rfl, rfl, rfl, by simp [hoob, hlt], fun x hx => hx, ?_, hq, hinv, rfl⟩
    exact ⟨harg, hstops, fun _ => ⟨by simp [hpcok.1], hpcok.1⟩, trivial⟩
  · -- entryRead, buffer freed
    exact ⟨rfl, rfl, rfl, rfl, hoob, fun x hx => hx,
      ⟨harg, hstops, fun h => by simp [Pc.inLoop] at h, trivial⟩, hq, hinv, rfl⟩
  · -- fault
    exact ⟨rfl, rfl, rfl, rfl, hoob, fun x hx => hx,
      ⟨harg, hstops, fun h => by simp [hpc, Pc.inLoop] at h, by simp [hpc]⟩, hq, hinv, rfl⟩
  · -- loopHead, continue
    exact ⟨rfl, rfl, rfl, rfl, hoob, fun x hx => hx,
      ⟨harg, hstops, fun _ => hloc rfl, h1⟩, hq, hinv, rfl⟩
  · -- loopHead, leave
    exact ⟨rfl, rfl, rfl, rfl, hoob, fun x hx => hx,
      ⟨harg, hstops, fun _ => hloc rfl, h1⟩, hq, hinv, rfl⟩
  · -- tier1, own queue empty
    have hl := (hloc rfl).1
    have he : p.queueAt i = [] := by simpa [ThreadPool.ownQueue, hl] using h1
    exact ⟨rfl, rfl, rfl, rfl, hoob, fun x hx => hx,
      ⟨harg, hstops, fun _ => hloc rfl, hpcok, he⟩, hq, hinv, rfl⟩
  · -- tier1, pop
    have hne : p.queueAt j ≠ [] := by rw [h2]; simp
    have hm := hq _ (queueAt_mem p j hne).1
    rw [h2] at hm
    simp only [List.mem_cons, not_or] at hm
    refine ⟨rfl, rfl, rfl, by simp, hoob, fun x hx => queueAt_set_nil p j x rest _ hne hx,
      ⟨harg, hstops, fun _ => hloc rfl, Ne.symm hm.1⟩, ?_, hinv, rfl⟩
    exact forall_mem_set (fun q => FuncWrapper.stop ∉ q) _ _ _ hq hm.2
  · -- initCheck, construction running
    exact ⟨rfl, rfl, rfl, rfl, hoob, fun x hx => hx,
      ⟨harg, hstops, fun _ => hloc rfl, hpcok⟩, hq, hinv, rfl⟩
  · -- initCheck, construction finished
    exact ⟨rfl, rfl, rfl, rfl, hoob, fun x hx => hx,
      ⟨harg, hstops, fun _ => hloc rfl, hpcok.1, hpcok.2, h1⟩, hq, hinv, rfl⟩
  · -- tier2, scan over
    exact ⟨rfl, rfl, rfl, rfl, hoob, fun x hx => hx,
      ⟨harg, hstops, fun _ => hloc rfl, hpcok.1, hpcok.2.1⟩, hq, hinv, rfl⟩
  · -- tier2, index out of range: impossible
    exfalso
    have := hfin hpcok.2.2
    have := stealIndex_lt w.tl.m_index k p.m_worker_num (by omega)
    omega
  · -- tier2, victim empty
    exact ⟨rfl, rfl, rfl, rfl, hoob, fun x hx => hx,
      ⟨harg, hstops, fun _ => hloc rfl, hpcok⟩, hq, hinv, rfl⟩
  · -- tier2, steal
    have hne : p.queueAt (stealIndex w.tl.m_index k p.m_worker_num) ≠ [] := by
      rw [h3]; simp
    have hm := hq _ (queueAt_mem p _ hne).1
    rw [h3] at hm
    simp only [List.mem_append, List.mem_singleton, not_or] at hm
    refine ⟨rfl, rfl, rfl, by simp, hoob, fun x hx => queueAt_set_nil p _ x q _ hne hx,
      ⟨harg, hstops, fun _ => hloc rfl, Ne.symm hm.2⟩, ?_, hinv, rfl⟩
    exact forall_mem_set (fun q => FuncWrapper.stop ∉ q) _ _ _ hq hm.1
  · -- tier3, shared queue empty
    exact ⟨rfl, rfl, rfl, rfl, hoob, fun x hx => hx,
      ⟨harg, hstops, fun _ => hloc rfl, trivial⟩, hq, hinv, rfl⟩
  · -- tier3, stop sentinel
    refine ⟨rfl, rfl, rfl, rfl, hoob, fun x hx => hx,
      ⟨harg, by simp, fun _ => hloc rfl, trivial⟩, hq, hinv, ?_⟩
    simp [h1]; omega
  · -- tier3, task
    refine ⟨rfl, rfl, rfl, rfl, hoob, fun x hx => hx,
      ⟨harg, hstops, fun _ => hloc rfl, by simp⟩, hq, hinv, ?_⟩
    simp [h1]
  · -- call
    refine ⟨rfl, rfl, rfl, rfl, hoob, fun x hx => hx,
      ⟨harg, hstops, fun _ => hloc rfl, trivial⟩, hq, ?_, rfl⟩
    simp only [ThreadPool.call, List.mem_append, List.mem_singleton, not_or]
    exact ⟨hinv, Ne.symm hpcok⟩
  · -- exited
    exact ⟨rfl, rfl, rfl, rfl, hoob, fun x hx => hx,
      ⟨harg, hstops, fun _ => hloc rfl, by simpa [hpc] using hpcok⟩, hq, hinv, rfl⟩

/-- What one call of `run_pending_task` changes. -/
theorem rpt_inv (p : ThreadPool) (tl : ThreadLocal)
    (hfin : p.m_init_finished = true → p.m_queues.length = p.m_worker_num)
    (hq : ∀ q ∈ p.m_queues, FuncWrapper.stop ∉ q)
    (hinv : FuncWrapper.stop ∉ p.invoked) :
    (p.run_pending_task tl).1.m_done = p.m_done ∧
    (p.run_pending_task tl).1.m_init_finished = p.m_init_finished ∧
    (p.run_pending_task tl).1.m_worker_num = p.m_worker_num ∧
    (p.run_pending_task tl).1.m_queues.length = p.m_queues.length ∧
    (p.run_pending_task tl).1.oob = p.oob ∧
    (∀ x, p.queueAt x = [] → (p.run_pending_task tl).1.queueAt x = []) ∧
    (∀ q ∈ (p.run_pending_task tl).1.m_queues, FuncWrapper.stop ∉ q) ∧
    FuncWrapper.stop ∉ (p.run_pending_task tl).1.invoked ∧
    (p.run_pending_task tl).1.m_pool_work_queue.count .stop
        + sentinelsTaken p (p.run_pending_task tl).1 = p.m_pool_work_queue.count .stop ∧
    (p.run_pending_task tl).2.m_local_work_queue = tl.m_local_work_queue ∧
    (p.run_pending_task tl).2.m_index = tl.m_index ∧
    ((sentinelsTaken p (p.run_pending_task tl).1 = 0 ∧ (p.run_pending_task tl).2 = tl) ∨
      (sentinelsTaken p (p.run_pending_task tl).1 = 1 ∧
        (p.run_pending_task tl).2.m_thread_need_stop = true ∧ p.ownQueue tl = [] ∧
        (p.run_pending_task tl).1.m_queues = p.m_queues)) := by
  rcases rpt_cases p tl hfin with
    ⟨j, t, rest, h1, h2, hr⟩ | ⟨j, q, t, h1, h2, hr⟩ | ⟨rest, h1, h2, hr⟩ |
    ⟨f, rest, h1, h2, hr⟩ | hr
  all_goals rw [hr]
  · have hne : p.queueAt j ≠ [] := by rw [h2]; simp
    have hm := hq _ (queueAt_mem p j hne).1
    rw [h2] at hm
    simp only [List.mem_cons, not_or] at hm
    refine ⟨rfl, rfl, rfl, by simp, rfl, fun x hx => queueAt_set_nil p j x rest _ hne hx,
      forall_mem_set (fun q => FuncWrapper.stop ∉ q) _ _ _ hq hm.2, ?_, ?_, rfl, rfl,
      Or.inl ⟨?_, rfl⟩⟩
    · simp only [List.mem_append, List.mem_singleton, not_or]
      exact ⟨hinv, hm.1⟩
    · simp [sentinelsTaken]
    · simp [sentinelsTaken]
  · have hne : p.queueAt j ≠ [] := by rw [h2]; simp
    have hm := hq _ (queueAt_mem p j hne).1
    rw [h2] at hm
    simp only [List.mem_append, List.mem_singleton, not_or] at hm
    refine ⟨rfl, rfl, rfl, by simp, rfl, fun x hx => queueAt_set_nil p j x q _ hne hx,
      forall_mem_set (fun q => FuncWrapper.stop ∉ q) _ _ _ hq hm.1, ?_, ?_, rfl, rfl,
      Or.inl ⟨?_, rfl⟩⟩
    · simp only [List.mem_append, List.mem_singleton, not_or]
      exact ⟨hinv, hm.2⟩
    · simp [sentinelsTaken]
    · simp [sentinelsTaken]
  · refine ⟨rfl, rfl, rfl, rfl, rfl, fun x hx => hx, hq, hinv, ?_, rfl, rfl,
      Or.inr ⟨?_, rfl, h1, rfl⟩⟩
    · simp [sentinelsTaken, h2]
    · simp [sentinelsTaken, h2]
  · refine ⟨rfl, rfl, rfl, rfl, rfl, fun x hx => hx, hq, ?_, ?_, rfl, rfl,
      Or.inl ⟨?_, rfl⟩⟩
    · simp only [List.mem_append, List.mem_singleton, not_or]
      exact ⟨hinv, by simp⟩
    · simp [sentinelsTaken, h2]
    · simp [sentinelsTaken, h2]
  · exact ⟨rfl, rfl, rfl, rfl, rfl, fun x hx => hx, hq, hinv, by simp [sentinelsTaken],
      rfl, rfl, Or.inl ⟨by simp [sentinelsTaken], rfl⟩⟩

theorem step_worker_some (s : Sys) (i : Nat) (w : Worker) (h : s.threads[i]? = some w) :
    step s (.worker i) =
      { s with pool := (workerStep s.pool s.queuesBuffer w).1,
               threads := s.threads.set i (workerStep s.pool s.queuesBuffer w).2 } := by
  simp [step, h]

theorem step_worker_none (s : Sys) (i : Nat) (h : s.threads[i]? = none) :
    step s (.worker i) = s := by
  simp [step, h]

theorem CtorPc.Ok.congr {n : Nat} {p p' : ThreadPool} {k : Nat} {c : CtorPc}
    (h : c.Ok n p k) (h1 : p'.m_queues.length = p.m_queues.length)
    (h2 : p'.m_init_finished = p.m_init_finished) (h3 : p'.m_done = p.m_done) :
    c.Ok n p' k := by
  cases c <;> simp only [CtorPc.Ok, h1, h2, h3] at h ⊢ <;> exact h

theorem CtorPc.Ok.finished_of_init {n : Nat} {p : ThreadPool} {k : Nat} {c : CtorPc}
    (h : c.Ok n p k) (hi : p.m_init_finished = true) :
    c = .finished ∧ p.m_queues.length = n ∧ k = n ∧ p.m_done = false := by
  cases c <;> simp only [CtorPc.Ok, hi] at h
  · simp at h
  · simp at h
  · exact ⟨rfl, h.2.1, h.1, h.2.2.2⟩
  · simp at h

theorem inv_init (n : Nat) : (Sys.init n).Inv n := by
  refine ⟨rfl, rfl, Nat.zero_le _, ?_, Nat.le_refl _, ?_, ?_, ?_, ?_, rfl⟩
  · intro h; exact absurd h (by simp [Sys.init])
  · exact ⟨rfl, rfl, Nat.zero_le _, rfl, rfl⟩
  · intro i w h; simp [Sys.init] at h
  · intro q h; simp [Sys.init, ThreadPool.initial] at h
  · simp [Sys.init, ThreadPool.initial]

theorem inv_step_ctor (n : Nat) (s : Sys) (ok : Bool) (h : s.Inv n) :
    (step s (.ctor ok)).Inv n := by
  obtain ⟨hn, hoob, hjc, hjf, hlen, hctor, hws, hq, hinv, hcount⟩ := h
  cases hc : s.ctor with
  | finished => simpa [step, hc] using ⟨hn, hoob, hjc, hjf, hlen, hctor, hws, hq, hinv, hcount⟩
  | thrown => simpa [step, hc] using ⟨hn, hoob, hjc, hjf, hlen, hctor, hws, hq, hinv, hcount⟩
  | queue i =>
    rw [hc] at hctor
    obtain ⟨c1, c2, c3, c4, c5⟩ := hctor
    have hj0 : ¬ 0 < s.joinCount := fun h0 => by
      have := hjf h0; rw [hc] at this; cases this
    simp only [step, hc]
    by_cases hin : i < s.pool.m_worker_num
    · cases ok with
      | true =>
        simp only [hin, if_true]
        refine ⟨hn, hoob, hjc, fun h0 => absurd h0 hj0, ?_, ?_, ?_, ?_, hinv, hcount⟩
        · simp only [List.length_append, List.length_singleton]; omega
        · exact ⟨c1, by simp only [List.length_append, List.length_singleton]; omega,
            by omega, c4, c5⟩
        · intro j w hw
          exact (hws j w hw).mono
            (fun hx => by
              simp only [ThreadPool.queueAt] at hx ⊢
              rw [getD_append_nil]; exact hx) id id
        · intro q hq'
          rcases List.mem_append.1 hq' with h1 | h1
          · exact hq q h1
          · simp only [List.mem_singleton] at h1; rw [h1]; simp
      | false =>
        simp only [hin, if_true, Bool.false_eq_true, if_false]
        refine ⟨hn, hoob, hjc, fun h0 => absurd h0 hj0, hlen, ?_, ?_, hq, hinv, hcount⟩
        · exact ⟨by dsimp only; omega, c4, rfl⟩
        · intro j w hw
          exact (hws j w hw).mono id id (fun _ => rfl)
    · simp only [hin, if_false]
      refine ⟨hn, hoob, hjc, fun _ => rfl, hlen, ?_, ?_, hq, hinv, hcount⟩
      · exact ⟨by dsimp only; omega, by dsimp only; omega, rfl, c5⟩
      · intro j w hw
        exact (hws j w hw).mono id (fun _ => rfl) id
  | thread i =>
    rw [hc] at hctor
    obtain ⟨c1, c2, c3, c4, c5⟩ := hctor
    have hj0 : ¬ 0 < s.joinCount := fun h0 => by
      have := hjf h0; rw [hc] at this; cases this
    simp only [step, hc]
    cases ok with
    | true =>
      simp only [if_true]
      refine ⟨hn, hoob, hjc, fun h0 => absurd h0 hj0, ?_, ?_, ?_, hq, hinv, ?_⟩
      · simp only [List.length_append, List.length_singleton]; omega
      · exact ⟨by simp only [List.length_append, List.length_singleton]; omega, c2,
          by omega, c4, c5⟩
      · intro j w hw
        by_cases hj : j < s.threads.length
        · rw [List.getElem?_append_left hj] at hw
          exact hws j w hw
        · rw [List.getElem?_append_right (by omega)] at hw
          have hj' : j - s.threads.length = 0 := by
            by_contra hne
            rw [List.getElem?_eq_none (by simp; omega)] at hw
            cases hw
          rw [hj'] at hw
          simp only [List.getElem?_cons_zero, Option.some.injEq] at hw
          subst hw
          have hji : j = i := by omega
          exact ⟨hji.symm, by simp [ThreadLocal.fresh], fun h0 => by simp [Pc.inLoop] at h0,
            rfl⟩
      · simpa using hcount
    | false =>
      simp only [Bool.false_eq_true, if_false]
      refine ⟨hn, hoob, hjc, fun h0 => absurd h0 hj0, hlen, ?_, ?_, hq, hinv, hcount⟩
      · exact ⟨by dsimp only; omega, c4, rfl⟩
      · intro j w hw
        exact (hws j w hw).mono id id (fun _ => rfl)

theorem inv_step_worker (n : Nat) (s : Sys) (i : Nat) (h : s.Inv n) :
    (step s (.worker i)).Inv n := by
  cases hw : s.threads[i]? with
  | none => rw [step_worker_none s i hw]; exact h
  | some w =>
    rw [step_worker_some s i w hw]
    obtain ⟨hn, hoob, hjc, hjf, hlen, hctor, hws, hq, hinv, hcount⟩ := h
    have hi : i < s.threads.length := (List.getElem?_eq_some_iff.1 hw).1
    obtain ⟨f1, f2, f3, f4, f5, f6, f7, f8, f9, f10⟩ :=
      workerStep_inv n s.pool s.queuesBuffer i w hn hoob (by omega)
        (fun hinit => (hctor.finished_of_init hinit).2.1) (hws i w hw) hq hinv
    refine ⟨f3.trans hn, f5, hjc, hjf, ?_, ?_, ?_, f8, f9, ?_⟩
    · simp only [List.length_set]; omega
    · simp only [List.length_set]
      exact hctor.congr f4 f2 f1
    · intro j w' hw'
      rw [List.getElem?_set] at hw'
      by_cases hij : i = j
      · subst hij
        simp only [if_true, hi, Option.some.injEq] at hw'
        subst hw'
        exact f7
      · simp only [hij, if_false] at hw'
        exact (hws j w' hw').mono (f6 j) (fun h0 => by rw [f2]; exact h0)
          (fun h0 => by rw [f1]; exact h0)
    · have := sum_map_set_of_get Worker.stops s.threads i
        (workerStep s.pool s.queuesBuffer w).2 w hw
      simp only at this ⊢
      omega

theorem step_submitFrom_call (s : Sys) (i f : Nat) (w : Worker) (t : FuncWrapper)
    (hw : s.threads[i]? = some w) (hpc : w.pc = .call t) :
    step s (.submitFrom i f) =
      { s with pool := s.pool.submit w.tl f, submitted := s.submitted ++ [f] } := by
  simp [step, hw, hpc]

theorem step_submitFrom_idle (s : Sys) (i f : Nat)
    (h : ∀ w t, s.threads[i]? = some w → w.pc ≠ .call t) :
    step s (.submitFrom i f) = s := by
  cases hw : s.threads[i]? with
  | none => simp [step, hw]
  | some w =>
    have := h w
    rcases w with ⟨pc, arg, tl, stops⟩
    cases pc <;> simp_all [step]

theorem submitFrom_cases (s : Sys) (i f : Nat) :
    step s (.submitFrom i f) = s ∨
    ∃ w t, s.threads[i]? = some w ∧ w.pc = .call t ∧
      step s (.submitFrom i f) =
        { s with pool := s.pool.submit w.tl f, submitted := s.submitted ++ [f] } := by
  by_cases h : ∃ w t, s.threads[i]? = some w ∧ w.pc = .call t
  · obtain ⟨w, t, hw, hpc⟩ := h
    exact Or.inr ⟨w, t, hw, hpc, step_submitFrom_call s i f w t hw hpc⟩
  · left
    apply step_submitFrom_idle
    intro w t hw hpc
    exact h ⟨w, t, hw, hpc⟩

theorem step_runFrom_call (s : Sys) (i : Nat) (w : Worker) (t : FuncWrapper)
    (hw : s.threads[i]? = some w) (hpc : w.pc = .call t) :
    step s (.runFrom i) =
      { s with pool := (s.pool.run_pending_task w.tl).1,
               threads := s.threads.set i
                 { w with tl := (s.pool.run_pending_task w.tl).2,
                          stops := w.stops +
                            sentinelsTaken s.pool (s.pool.run_pending_task w.tl).1 } } := by
  simp [step, hw, hpc]

theorem step_runFrom_idle (s : Sys) (i : Nat)
    (h : ∀ w t, s.threads[i]? = some w → w.pc ≠ .call t) :
    step s (.runFrom i) = s := by
  cases hw : s.threads[i]? with
  | none => simp [step, hw]
  | some w =>
    have := h w
    rcases w with ⟨pc, arg, tl, stops⟩
    cases pc <;> simp_all [step]

theorem runFrom_cases (s : Sys) (i : Nat) :
    step s (.runFrom i) = s ∨
    ∃ w t, s.threads[i]? = some w ∧ w.pc = .call t ∧
      step s (.runFrom i) =
        { s with pool := (s.pool.run_pending_task w.tl).1,
                 threads := s.threads.set i
                   { w with tl := (s.pool.run_pending_task w.tl).2,
                            stops := w.stops +
                              sentinelsTaken s.pool (s.pool.run_pending_task w.tl).1 } } := by
  by_cases h : ∃ w t, s.threads[i]? = some w ∧ w.pc = .call t
  · obtain ⟨w, t, hw, hpc⟩ := h
    exact Or.inr ⟨w, t, hw, hpc, step_runFrom_call s i w t hw hpc⟩
  · left
    apply step_runFrom_idle
    intro w t hw hpc
    exact h ⟨w, t, hw, hpc⟩

theorem submit_local (p : ThreadPool) (tl : ThreadLocal) (f j : Nat)
    (h : tl.m_local_work_queue = some j) :
    p.submit tl f = { p with m_queues := p.m_queues.set j (.work f :: p.queueAt j) } := by
  simp [ThreadPool.submit, h, WorkStealQueue.push]

theorem submit_fresh (p : ThreadPool) (f : Nat) :
    p.submit ThreadLocal.fresh f =
      { p with m_pool_work_queue := p.m_pool_work_queue ++ [.work f] } := by
  simp [ThreadPool.submit, ThreadLocal.fresh, ThreadSafeQueue.push]

theorem inv_step_submitFrom (n : Nat) (s : Sys) (i f : Nat) (h : s.Inv n) :
    (step s (.submitFrom i f)).Inv n := by
  rcases submitFrom_cases s i f with he | ⟨w, t, hw, hpc, he⟩
  · rw [he]; exact h
  · rw [he]
    obtain ⟨hn, hoob, hjc, hjf, hlen, hctor, hws, hq, hinv, hcount⟩ := h
    have hok := hws i w hw
    have hloc : w.tl.m_local_work_queue = some i := (hok.2.2.1 (by simp [hpc, Pc.inLoop])).1
    rw [submit_local s.pool w.tl f i hloc]
    refine ⟨hn, hoob, hjc, hjf, by simpa using hlen, hctor.congr (by simp) rfl rfl, ?_, ?_,
      hinv, hcount⟩
    · intro j w' hw'
      by_cases hji : j = i
      · subst hji
        rw [hw] at hw'
        cases hw'
        obtain ⟨o1, o2, o3, o5⟩ := hok
        refine ⟨o1, o2, o3, ?_⟩
        rw [hpc] at o5 ⊢
        exact o5
      · refine (hws j w' hw').mono (fun hx => ?_) id id
        simp only [ThreadPool.queueAt] at hx ⊢
        rw [getD_set_ne _ _ _ _ _ hji]; exact hx
    · apply forall_mem_set (fun q => FuncWrapper.stop ∉ q) _ _ _ hq
      by_cases hj : s.pool.queueAt i = []
      · simp [hj]
      · have := hq _ (queueAt_mem s.pool i hj).1
        simp [this]

theorem inv_step_submitExt (n : Nat) (s : Sys) (f : Nat) (h : s.Inv n) :
    (step s (.submitExt f)).Inv n := by
  by_cases hc : s.ctor = .finished
  · obtain ⟨hn, hoob, hjc, hjf, hlen, hctor, hws, hq, hinv, hcount⟩ := h
    simp only [step, hc, if_true, submit_fresh]
    refine ⟨hn, hoob, hjc, fun _ => rfl, hlen, ?_, ?_, hq, hinv, ?_⟩
    · rw [hc] at hctor; exact hctor
    · intro j w hw
      exact (hws j w hw).mono id id id
    · simpa [List.count_append] using hcount
  · simpa [step, hc] using h

theorem inv_step_runFrom (n : Nat) (s : Sys) (i : Nat) (h : s.Inv n) :
    (step s (.runFrom i)).Inv n := by
  rcases runFrom_cases s i with he | ⟨w, t, hw, hpc, he⟩
  · rw [he]; exact h
  · rw [he]
    obtain ⟨hn, hoob, hjc, hjf, hlen, hctor, hws, hq, hinv, hcount⟩ := h
    have hi : i < s.threads.length := (List.getElem?_eq_some_iff.1 hw).1
    obtain ⟨f1, f2, f3, f4, f5, f6, f7, f8, f9, f10, f11, f12⟩ :=
      rpt_inv s.pool w.tl
        (fun hinit => ((hctor.finished_of_init hinit).2.1).trans hn.symm) hq hinv
    obtain ⟨o1, o2, o3, o5⟩ := hws i w hw
    refine ⟨f3.trans hn, f5.trans hoob, hjc, hjf, ?_, ?_, ?_, f7, f8, ?_⟩
    · simp only [List.length_set]; omega
    · simp only [List.length_set]
      exact hctor.congr f4 f2 f1
    · intro j w' hw'
      rw [List.getElem?_set] at hw'
      by_cases hij : i = j
      · subst hij
        simp only [if_true, hi, Option.some.injEq] at hw'
        subst hw'
        refine ⟨o1, ?_, ?_, ?_⟩
        · rcases f12 with ⟨d0, htl⟩ | ⟨d1, hns, -, -⟩
          · simp only [d0, htl, Nat.add_zero]; exact o2
          · simp [d1, hns]
        · intro _
          have := o3 (by simp [hpc, Pc.inLoop])
          exact ⟨f10.trans this.1, f11.trans this.2⟩
        · simp only [hpc] at o5 ⊢
          exact o5
      · simp only [hij, if_false] at hw'
        exact (hws j w' hw').mono (f6 j) (fun h0 => by rw [f2]; exact h0)
          (fun h0 => by rw [f1]; exact h0)
    · have := sum_map_set_of_get Worker.stops s.threads i
        { w with tl := (s.pool.run_pending_task w.tl).2,
                 stops := w.stops + sentinelsTaken s.pool (s.pool.run_pending_task w.tl).1 }
        w hw
      simp only at this ⊢
      omega

theorem inv_step_runExt (n : Nat) (s : Sys) (h : s.Inv n) :
    (step s .runExt).Inv n := by
  by_cases hc : s.ctor = .finished
  · obtain ⟨hn, hoob, hjc, hjf, hlen, hctor, hws, hq, hinv, hcount⟩ := h
    obtain ⟨f1, f2, f3, f4, f5, f6, f7, f8, f9, -, -, -⟩ :=
      rpt_inv s.pool ThreadLocal.fresh
        (fun hinit => ((hctor.finished_of_init hinit).2.1).trans hn.symm) hq hinv
    simp only [step, hc, if_true]
    refine ⟨f3.trans hn, f5.trans hoob, hjc, fun _ => rfl, by dsimp only; omega, ?_, ?_,
      f7, f8, ?_⟩
    · rw [hc] at hctor; exact hctor.congr f4 f2 f1
    · intro j w hw
      exact (hws j w hw).mono (f6 j) (fun h0 => by rw [f2]; exact h0)
        (fun h0 => by rw [f1]; exact h0)
    · dsimp only; omega
  · simpa [step, hc] using h

theorem inv_step_joinPush (n : Nat) (s : Sys) (h : s.Inv n) :
    (step s .joinPush).Inv n := by
  by_cases hc : s.ctor = .finished ∧ s.joinCount < s.pool.m_worker_num
  · obtain ⟨hn, hoob, hjc, hjf, hlen, hctor, hws, hq, hinv, hcount⟩ := h
    simp only [step, hc, and_self, if_true, ThreadSafeQueue.push]
    refine ⟨hn, hoob, by dsimp only; omega, fun _ => rfl, hlen, ?_, ?_, hq, hinv, ?_⟩
    · rw [hc.1] at hctor; exact hctor
    · intro j w hw
      exact (hws j w hw).mono id id id
    · simp only [List.count_append, List.count_singleton, beq_self_eq_true, if_true]
      omega
  · simpa [step, hc] using h

theorem inv_step (n : Nat) (s : Sys) (a : Action) (h : s.Inv n) : (step s a).Inv n := by
  cases a with
  | ctor ok => exact inv_step_ctor n s ok h
  | worker i => exact inv_step_worker n s i h
  | submitFrom i f => exact inv_step_submitFrom n s i f h
  | submitExt f => exact inv_step_submitExt n s f h
  | runFrom i => exact inv_step_runFrom n s i h
  | runExt => exact inv_step_runExt n s h
  | joinPush => exact inv_step_joinPush n s h

theorem inv_run (n : Nat) (acts : List Action) (s : Sys) (h : s.Inv n) :
    (run s acts).Inv n := by
  induction acts generalizing s with
  | nil => exact h
  | cons a acts ih => exact ih (step s a) (inv_step n s a h)

theorem inv_reachable (n : Nat) (acts : List Action) : (run (Sys.init n) acts).Inv n :=
  inv_run n acts _ (inv_init n)

theorem run_append (s : Sys) (a b : List Action) : run s (a ++ b) = run (run s a) b := by
  simp [run, List.foldl_append]

/-! ## Queue indices stay in range -/

theorem stealLoop_in_bounds (tl : ThreadLocal) (k i : Nat) (p : ThreadPool)
    (hlen : p.m_queues.length = p.m_worker_num) (hn : 0 < p.m_worker_num)
    (hoob : p.oob = false) :
    (ThreadPool.stealLoop tl k i p).pool.oob = false ∧
    ∀ x ∈ (ThreadPool.stealLoop tl k i p).probes, x < p.m_queues.length := by
  induction k generalizing i with
  | zero => simp [ThreadPool.stealLoop, hoob]
  | succ k ih =>
    have hlt : stealIndex tl.m_index i p.m_worker_num < p.m_queues.length := by
      rw [hlen]; exact stealIndex_lt _ _ _ hn
    rcases steal_at_cases p (stealIndex tl.m_index i p.m_worker_num) with
      ⟨h1, -⟩ | ⟨-, -, h3⟩ | ⟨q, t, -, -, h3⟩
    · omega
    · obtain ⟨ih1, ih2⟩ := ih (i + 1)
      simp only [ThreadPool.stealLoop, h3]
      refine ⟨ih1, ?_⟩
      intro x hx
      rcases List.mem_cons.1 hx with rfl | hx
      · exact hlt
      · exact ih2 x hx
    · simp only [ThreadPool.stealLoop, h3]
      refine ⟨hoob, ?_⟩
      intro x hx
      rw [List.mem_singleton.1 hx]; exact hlt

theorem scan_in_bounds (p : ThreadPool) (tl : ThreadLocal)
    (hlen : p.m_queues.length = p.m_worker_num) (hoob : p.oob = false) :
    (p.pop_task_from_other_thread_queue tl).pool.oob = false ∧
    (∀ x ∈ (p.pop_task_from_other_thread_queue tl).probes, x < p.m_queues.length) ∧
    (p.m_worker_num = 0 → (p.pop_task_from_other_thread_queue tl).probes = []) := by
  unfold ThreadPool.pop_task_from_other_thread_queue
  cases hinit : p.m_init_finished with
  | false => simp [hoob]
  | true =>
    simp only [Bool.not_true, Bool.false_eq_true, if_false]
    rcases Nat.eq_zero_or_pos p.m_worker_num with h0 | hn
    · simp [h0, ThreadPool.stealLoop, hoob]
    · obtain ⟨h1, h2⟩ := stealLoop_in_bounds tl p.m_worker_num 0 p hlen hn hoob
      exact ⟨h1, h2, fun h0 => by omega⟩

/-- The indices used on `m_queues` are in range under every schedule: the ghost flag
for an out-of-range index is never set, every thread of `m_threads` was created with
its own position, whose queue has already been appended, and once the
construction-finished flag is set the vector has exactly `n` entries and every scan
touches only indices below `n`. (Whether the element can be read safely while the
constructor is still appending is a separate matter, see `raceSchedule`.) -/
theorem queue_indices_in_range (n : Nat) (acts : List Action) :
    (run (Sys.init n) acts).pool.oob = false ∧
    (∀ (i : Nat) (w : Worker), (run (Sys.init n) acts).threads[i]? = some w →
      w.arg = i ∧ i < (run (Sys.init n) acts).pool.m_queues.length) ∧
    ((run (Sys.init n) acts).pool.m_init_finished = true →
      (run (Sys.init n) acts).pool.m_queues.length = n ∧
      ∀ tl : ThreadLocal,
        (∀ x ∈ ((run (Sys.init n) acts).pool.pop_task_from_other_thread_queue tl).probes,
          x < (run (Sys.init n) acts).pool.m_queues.length) ∧
        ((run (Sys.init n) acts).pool.pop_task_from_other_thread_queue tl).pool.oob
          = false) := by
  obtain ⟨hn, hoob, -, -, hlen, hctor, hws, -, -, -⟩ := inv_reachable n acts
  refine ⟨hoob, ?_, ?_⟩
  · intro i w hw
    have hi : i < (run (Sys.init n) acts).threads.length := (List.getElem?_eq_some_iff.1 hw).1
    exact ⟨(hws i w hw).1, by omega⟩
  · intro hinit
    obtain ⟨-, hl, -, -⟩ := hctor.finished_of_init hinit
    refine ⟨hl, fun tl => ?_⟩
    obtain ⟨h1, h2, -⟩ :=
      scan_in_bounds (run (Sys.init n) acts).pool tl (hl.trans hn.symm) hoob
    exact ⟨h2, h1⟩

/-! ## C3: conservation of tasks -/

theorem workerStep_pool_queue (p : ThreadPool) (buf : Nat) (w : Worker) :
    ((workerStep p buf w).1.m_pool_work_queue = p.m_pool_work_queue ∧
      ((workerStep p buf w).2.tl.m_thread_need_stop = true →
        w.tl.m_thread_need_stop = true)) ∨
    (∃ rest, p.m_pool_work_queue = .stop :: rest ∧
      (workerStep p buf w).1.m_pool_work_queue = rest ∧ w.pc = .tier3) ∨
    (∃ f rest, p.m_pool_work_queue = .work f :: rest ∧
      (workerStep p buf w).1.m_pool_work_queue = rest ∧
      (workerStep p buf w).2.tl = w.tl) := by
  rcases workerStep_cases p buf w with
    ⟨hpc, hr⟩ | ⟨hpc, hr⟩ | ⟨base, hpc, -, hr⟩ | ⟨hpc, hr⟩ |
    ⟨hpc, h1, h2, hr⟩ | ⟨hpc, h1, hr⟩ | ⟨hpc, h1, hr⟩ |
    ⟨j, t, rest, hpc, h1, h2, hr⟩ | ⟨hpc, h1, hr⟩ | ⟨hpc, h1, hr⟩ | ⟨k, hpc, h1, hr⟩ |
    ⟨k, hpc, h1, h2, hr⟩ | ⟨k, hpc, h1, h2, h3, hr⟩ | ⟨k, q, t, hpc, h1, h2, h3, hr⟩ |
    ⟨hpc, h1, hr⟩ | ⟨rest, hpc, h1, hr⟩ | ⟨g, rest, hpc, h1, hr⟩ | ⟨t, hpc, hr⟩ | ⟨hpc, hr⟩
  all_goals rw [hr]
  · left; simp
  · left; simp
  · left; simp
  · left; simp
  · left; simp
  · left; simp
  · left; simp
  · left; simp
  · left; simp
  · left; simp
  · left; simp
  · left; simp
  · left; simp
  · left; simp
  · left; simp
  · right; left; exact ⟨rest, h1, rfl, hpc⟩
  · right; right; exact ⟨g, rest, h1, rfl, rfl⟩
  · left; simp [ThreadPool.call]
  · left; simp

theorem count_stop_of_cons (t : FuncWrapper) (rest : List FuncWrapper)
    (h : (t :: rest).count .stop = 0) : rest.count .stop = 0 := by
  rw [List.count_cons] at h
  omega

theorem workerStep_starved (p : ThreadPool) (buf : Nat) (w : Worker)
    (hcount : p.m_pool_work_queue.count .stop = 0) (hdone : p.m_done = false)
    (hns : w.tl.m_thread_need_stop = false) (hpc : w.pc ≠ .exited) :
    (workerStep p buf w).2.tl.m_thread_need_stop = false ∧
    (workerStep p buf w).2.pc ≠ .exited := by
  rcases workerStep_cases p buf w with
    ⟨hpc, hr⟩ | ⟨hpc, hr⟩ | ⟨base, hpc, -, hr⟩ | ⟨hpc, hr⟩ |
    ⟨hpc, h1, h2, hr⟩ | ⟨hpc, h1, hr⟩ | ⟨hpc, h1, hr⟩ |
    ⟨j, t, rest, hpc, h1, h2, hr⟩ | ⟨hpc, h1, hr⟩ | ⟨hpc, h1, hr⟩ | ⟨k, hpc, h1, hr⟩ |
    ⟨k, hpc, h1, h2, hr⟩ | ⟨k, hpc, h1, h2, h3, hr⟩ | ⟨k, q, t, hpc, h1, h2, h3, hr⟩ |
    ⟨hpc, h1, hr⟩ | ⟨rest, hpc, h1, hr⟩ | ⟨f, rest, hpc, h1, hr⟩ | ⟨t, hpc, hr⟩ | ⟨hpc', hr⟩
  all_goals rw [hr]
  · exact ⟨rfl, by simp⟩
  · exact ⟨hns, by simp⟩
  · exact ⟨hns, by simp⟩
  · exact ⟨hns, by simp [hpc]⟩
  · exact ⟨hns, by simp⟩
  · rcases h1 with h | h
    · rw [hns] at h; cases h
    · rw [hdone] at h; cases h
  · exact ⟨hns, by simp⟩
  · exact ⟨hns, by simp⟩
  · exact ⟨hns, by simp⟩
  · exact ⟨hns, by simp⟩
  · exact ⟨hns, by simp⟩
  · exact ⟨hns, by simp⟩
  · exact ⟨hns, by simp⟩
  · exact ⟨hns, by simp⟩
  · exact ⟨hns, by simp⟩
  · rw [h1] at hcount; simp at hcount
  · exact ⟨hns, by simp⟩
  · exact ⟨hns, by simp⟩
  · exact absurd hpc' hpc

theorem step_submitExt_finished (s : Sys) (g : Nat) (h : s.ctor = .finished) :
    step s (.submitExt g) =
      { s with pool := { s.pool with
                 m_pool_work_queue := s.pool.m_pool_work_queue ++ [.work g] },
               submitted := s.submitted ++ [g] } := by
  simp [step, h, submit_fresh]

theorem step_runExt_finished (s : Sys) (h : s.ctor = .finished) :
    step s .runExt =
      { s with pool := (s.pool.run_pending_task ThreadLocal.fresh).1,
               helperStops := s.helperStops +
                 sentinelsTaken s.pool (s.pool.run_pending_task ThreadLocal.fresh).1 } := by
  simp [step, h]

theorem starved_step (n j : Nat) (s : Sys) (a : Action) (h : s.Starved n j) :
    (step s a).Starved n j := by
  have hI' := inv_step n s a h.1
  obtain ⟨hI, hfin, hjc, hcount, w, hw, hns, hpc⟩ := h
  have hwn : s.pool.m_worker_num = n := hI.1
  have hctor := hI.2.2.2.2.2.1
  rw [hfin] at hctor
  have hdone : s.pool.m_done = false := hctor.2.2.2
  have hfin' : s.pool.m_init_finished = true → s.pool.m_queues.length = s.pool.m_worker_num :=
    fun _ => hctor.2.1.trans hwn.symm
  refine ⟨hI', ?_⟩
  cases a with
  | ctor ok =>
    have he : step s (.ctor ok) = s := by simp [step, hfin]
    rw [he]; exact ⟨hfin, hjc, hcount, w, hw, hns, hpc⟩
  | worker i =>
    cases hwi : s.threads[i]? with
    | none => rw [step_worker_none s i hwi]; exact ⟨hfin, hjc, hcount, w, hw, hns, hpc⟩
    | some wi =>
      rw [step_worker_some s i wi hwi]
      have hi : i < s.threads.length := (List.getElem?_eq_some_iff.1 hwi).1
      refine ⟨hfin, hjc, ?_, ?_⟩
      · rcases workerStep_pool_queue s.pool s.queuesBuffer wi with
          ⟨h1, -⟩ | ⟨rest, h1, h2, -⟩ | ⟨f, rest, h1, h2, -⟩
        · dsimp only; rw [h1]; exact hcount
        · dsimp only; rw [h2]; rw [h1] at hcount; exact count_stop_of_cons _ _ hcount
        · dsimp only; rw [h2]; rw [h1] at hcount; exact count_stop_of_cons _ _ hcount
      · dsimp only
        by_cases hij : i = j
        · subst hij
          obtain rfl : wi = w := by rw [hwi] at hw; exact Option.some.inj hw
          refine ⟨(workerStep s.pool s.queuesBuffer wi).2, by simp [List.getElem?_set, hi], ?_⟩
          exact workerStep_starved s.pool s.queuesBuffer wi hcount hdone hns hpc
        · exact ⟨w, by simp [List.getElem?_set, hij, hw], hns, hpc⟩
  | submitFrom i g =>
    rcases submitFrom_cases s i g with he | ⟨wi, t, hwi, hpci, he⟩
    · rw [he]; exact ⟨hfin, hjc, hcount, w, hw, hns, hpc⟩
    · rw [he]
      have hloc : wi.tl.m_local_work_queue = some i :=
        ((hI.2.2.2.2.2.2.1 i wi hwi).2.2.1 (by simp [hpci, Pc.inLoop])).1
      rw [submit_local s.pool wi.tl g i hloc]
      exact ⟨hfin, hjc, hcount, w, hw, hns, hpc⟩
  | submitExt g =>
    rw [step_submitExt_finished s g hfin]
    exact ⟨hfin, hjc, by simpa [List.count_append] using hcount, w, hw, hns, hpc⟩
  | runFrom i =>
    rcases runFrom_cases s i with he | ⟨wi, t, hwi, hpci, he⟩
    · rw [he]; exact ⟨hfin, hjc, hcount, w, hw, hns, hpc⟩
    · rw [he]
      have hi : i < s.threads.length := (List.getElem?_eq_some_iff.1 hwi).1
      obtain ⟨-, -, -, -, -, -, -, -, f9, -, -, f12⟩ :=
        rpt_inv s.pool wi.tl hfin' hI.2.2.2.2.2.2.2.1 hI.2.2.2.2.2.2.2.2.1
      refine ⟨hfin, hjc, by dsimp only; omega, ?_⟩
      dsimp only
      by_cases hij : i = j
      · subst hij
        obtain rfl : wi = w := by rw [hwi] at hw; exact Option.some.inj hw
        refine ⟨{ wi with tl := (s.pool.run_pending_task wi.tl).2,
                          stops := wi.stops +
                            sentinelsTaken s.pool (s.pool.run_pending_task wi.tl).1 },
          by simp [List.getElem?_set, hi], ?_, hpc⟩
        rcases f12 with ⟨-, htl⟩ | ⟨d1, -, -, -⟩
        · rw [htl]; exact hns
        · omega
      · exact ⟨w, by simp [List.getElem?_set, hij, hw], hns, hpc⟩
  | runExt =>
    obtain ⟨-, -, -, -, -, -, -, -, f9, -, -, -⟩ :=
      rpt_inv s.pool ThreadLocal.fresh hfin' hI.2.2.2.2.2.2.2.1 hI.2.2.2.2.2.2.2.2.1
    rw [step_runExt_finished s hfin]
    exact ⟨hfin, hjc, by dsimp only; omega, w, hw, hns, hpc⟩
  | joinPush =>
    have : ¬ (s.ctor = .finished ∧ s.joinCount < s.pool.m_worker_num) := by
      rintro ⟨-, h2⟩; omega
    have he : step s .joinPush = s := by simp [step, this]
    rw [he]; exact ⟨hfin, hjc, hcount, w, hw, hns, hpc⟩

theorem starved_run (n j : Nat) (acts : List Action) (s : Sys) (h : s.Starved n j) :
    (run s acts).Starved n j := by
  induction acts generalizing s with
  | nil => exact h
  | cons a acts ih => exact ih (step s a) (starved_step n j s a h)

theorem not_joinReturned_of_running (s : Sys) (j : Nat) (w : Worker)
    (hw : s.threads[j]? = some w) (hpc : w.pc ≠ .exited) : s.joinReturned = false := by
  have hmem : w ∈ s.threads := List.mem_iff_getElem?.2 ⟨j, hw⟩
  have : s.threads.all (fun w => decide (w.pc = .exited)) = false := by
    rw [List.all_eq_false]
    exact ⟨w, hmem, by simpa using hpc⟩
  simp [Sys.joinReturned, this]

/-! ## The two layers agree -/

theorem workerRun_add (buf a b : Nat) (s : ThreadPool × Worker) :
    workerRun buf (a + b) s = workerRun buf b (workerRun buf a s) := by
  induction a generalizing s with
  | zero => simp [workerRun]
  | succ a ih =>
    rw [Nat.succ_add]
    simp only [workerRun]
    exact ih _

theorem steal_at_worker_num (p : ThreadPool) (j : Nat) :
    (p.steal_at j).2.m_worker_num = p.m_worker_num := by
  rcases steal_at_cases p j with ⟨-, h⟩ | ⟨-, -, h⟩ | ⟨q, t, -, -, h⟩ <;> rw [h]

/-- The steps of a worker inside the scan loop compute `stealLoop`. -/
theorem workerRun_scan (buf k i : Nat) (p : ThreadPool) (w : Worker)
    (hpc : w.pc = .tier2 i) (hk : i + k = p.m_worker_num) :
    ∃ m, workerRun buf m (p, w) =
      ((ThreadPool.stealLoop w.tl k i p).pool,
       { w with pc := match (ThreadPool.stealLoop w.tl k i p).task with
                      | some t => .call t
                      | none => .tier3 }) := by
  induction k generalizing i p w with
  | zero =>
    refine ⟨1, ?_⟩
    have hi : ¬ i < p.m_worker_num := by omega
    simp [workerRun, workerStep, hpc, hi, ThreadPool.stealLoop]
  | succ k ih =>
    have hi : i < p.m_worker_num := by omega
    cases hs : p.steal_at (stealIndex w.tl.m_index i p.m_worker_num) with
    | mk o p' =>
      cases o with
      | some t =>
        refine ⟨1, ?_⟩
        simp [workerRun, workerStep, hpc, hi, ThreadPool.stealLoop, hs]
      | none =>
        have hwn : p'.m_worker_num = p.m_worker_num := by
          have := steal_at_worker_num p (stealIndex w.tl.m_index i p.m_worker_num)
          rwa [hs] at this
        obtain ⟨m, hm⟩ := ih (i + 1) p' { w with pc := .tier2 (i + 1) } rfl (by omega)
        refine ⟨1 + m, ?_⟩
        rw [workerRun_add]
        have h1 : workerRun buf 1 (p, w) = (p', { w with pc := .tier2 (i + 1) }) := by
          simp [workerRun, workerStep, hpc, hi, hs]
        rw [h1, hm]
        simp [ThreadPool.stealLoop, hs]

/-- The steps of one worker thread from the start of a loop iteration back to the
loop test, taken without interference, compute `run_pending_task`. -/
theorem workerRun_run_pending_task (buf : Nat) (p : ThreadPool) (w : Worker)
    (hpc : w.pc = .tier1) :
    ∃ m, (workerRun buf m (p, w)).1 = (p.run_pending_task w.tl).1 ∧
      (workerRun buf m (p, w)).2.pc = .loopHead ∧
      (workerRun buf m (p, w)).2.tl = (p.run_pending_task w.tl).2 := by
  cases h1 : p.pop_task_from_local_queue w.tl with
  | mk o p1 =>
    cases o with
    | some t =>
      refine ⟨2, ?_⟩
      simp [workerRun, workerStep, hpc, h1, ThreadPool.run_pending_task]
    | none =>
      have hA : workerRun buf 1 (p, w) = (p1, { w with pc := .initCheck }) := by
        simp [workerRun, workerStep, hpc, h1]
      -- from `initCheck` to the state before tier 3 or inside `task()`
      have hB : ∃ m, workerRun buf m (p1, { w with pc := .initCheck }) =
          ((p1.pop_task_from_other_thread_queue w.tl).pool,
           { w with pc := match (p1.pop_task_from_other_thread_queue w.tl).task with
                          | some t => .call t
                          | none => .tier3 }) := by
        cases hinit : p1.m_init_finished with
        | false =>
          refine ⟨1, ?_⟩
          simp [workerRun, workerStep, hinit, ThreadPool.pop_task_from_other_thread_queue]
        | true =>
          obtain ⟨m, hm⟩ := workerRun_scan buf p1.m_worker_num 0 p1 { w with pc := .tier2 0 }
            rfl (by omega)
          refine ⟨1 + m, ?_⟩
          rw [workerRun_add]
          have h0 : workerRun buf 1 (p1, { w with pc := .initCheck }) =
              (p1, { w with pc := .tier2 0 }) := by
            simp [workerRun, workerStep, hinit]
          rw [h0, hm]
          simp [ThreadPool.pop_task_from_other_thread_queue, hinit]
      obtain ⟨m, hm⟩ := hB
      cases h2 : (p1.pop_task_from_other_thread_queue w.tl).task with
      | some t =>
        refine ⟨1 + (m + 1), ?_⟩
        rw [workerRun_add, hA, workerRun_add, hm]
        simp [workerRun, workerStep, h2, ThreadPool.run_pending_task, h1]
      | none =>
        cases h3 : (p1.pop_task_from_other_thread_queue w.tl).pool.pop_task_from_pool_queue with
        | mk o3 p3 =>
          cases o3 with
          | none =>
            refine ⟨1 + (m + 1), ?_⟩
            rw [workerRun_add, hA, workerRun_add, hm]
            simp [workerRun, workerStep, h2, h3, ThreadPool.run_pending_task, h1]
          | some t =>
            cases ht : t.is_stop_task with
            | true =>
              refine ⟨1 + (m + 1), ?_⟩
              rw [workerRun_add, hA, workerRun_add, hm]
              simp [workerRun, workerStep, h2, h3, ht, ThreadPool.run_pending_task, h1]
            | false =>
              refine ⟨1 + (m + 2), ?_⟩
              rw [workerRun_add, hA, workerRun_add, hm]
              simp [workerRun, workerStep, h2, h3, ht, ThreadPool.run_pending_task, h1]

/-! ## Instances on concrete pools and schedules -/

set_option maxRecDepth 100000

/-- C10. There is a pool with two workers and an interleaving in which, after
`join()` has pushed its two stop sentinels and before any worker has taken one, a
single worker thread takes both of them from the shared overflow queue: the task
running on worker 0 calls the public `run_pending_task()` twice, and that function
never looks at the stop flag. Afterwards fewer sentinels remain in the shared queue
(none) than there are workers still waiting for one (worker 1), and whatever happens
next worker 1 never gets its stop flag set and never leaves its loop, so `join()`
never returns. -/
theorem sentinel_starvation :
    ∃ (n : Nat) (pre post : List Action) (j : Nat),
      2 ≤ n ∧
      (run (Sys.init n) pre).joinCount = n ∧
      (run (Sys.init n) pre).pool.m_pool_work_queue.count .stop = n ∧
      (∀ w ∈ (run (Sys.init n) pre).threads, w.stops = 0) ∧
      (∃ w ∈ (run (Sys.init n) (pre ++ post)).threads,
        w.pc.inLoop = true ∧ 2 ≤ w.stops) ∧
      (run (Sys.init n) (pre ++ post)).pool.m_pool_work_queue.count .stop
        < (run (Sys.init n) (pre ++ post)).awaitingStop.length ∧
      ∀ more : List Action,
        (run (Sys.init n) (pre ++ post ++ more)).joinReturned = false ∧
        ∃ w, (run (Sys.init n) (pre ++ post ++ more)).threads[j]? = some w ∧
          w.tl.m_thread_need_stop = false ∧ w.pc ≠ .exited := by
  refine ⟨2, starvePrefix, starveSuffix, 1, by decide, by decide, by decide, by decide,
    by decide, by decide, fun more => ?_⟩
  have h0 : (run (Sys.init 2) (starvePrefix ++ starveSuffix)).Starved 2 1 :=
    ⟨inv_reachable _ _, by decide, by decide, by decide,
      { pc := .tier1, arg := 1,
        tl := { m_local_work_queue := some 1, m_index := 1, m_thread_need_stop := false },
        stops := 0 },
      by decide, rfl, by decide⟩
  have h1 := starved_run 2 1 more _ h0
  rw [← run_append] at h1
  obtain ⟨-, -, -, -, w, hw, hns, hpc⟩ := h1
  exact ⟨not_joinReturned_of_running _ 1 w hw hpc, w, hw, hns, hpc⟩

/-- C9, evaluated on `raceSchedule` for two workers. Worker 0 is spawned when only
queue 0 exists and loads the address of the vector's buffer (buffer 1); the
constructor then appends queue 1, which finds the vector full and moves it to
buffer 2; worker 0 now reads `m_queues[0]` through the freed buffer 1. Its index 0 is
in range of the two queues, and no out-of-range index was ever used: the lookup
fails although every index is in bounds. -/
theorem worker_reads_freed_queue_buffer :
    (run (Sys.init 2) (raceSchedule.take 3)).threads.map Worker.pc = [.entryRead 1] ∧
    (run (Sys.init 2) (raceSchedule.take 3)).queuesBuffer = 1 ∧
    (run (Sys.init 2) (raceSchedule.take 3)).pool.m_queues.length = 1 ∧
    (run (Sys.init 2) (raceSchedule.take 4)).queuesBuffer = 2 ∧
    (run (Sys.init 2) raceSchedule).threads.map Worker.pc = [.fault] ∧
    (run (Sys.init 2) raceSchedule).threads.map Worker.arg = [0] ∧
    (run (Sys.init 2) raceSchedule).pool.m_queues.length = 2 ∧
    (run (Sys.init 2) raceSchedule).pool.oob = false ∧
    (run (Sys.init 2) raceSchedule).pool.m_init_finished = false := by
  decide

/-- Witness for C2: on `demoPool`, worker 0 (own queue empty) steals the task at the
back of queue 1, the first non-empty queue of its scan order. -/
theorem run_pending_task_tier_order_witness :
    (demoPool.m_init_finished = true ∧ demoPool.m_queues.length = demoPool.m_worker_num) ∧
    demoPool.run_pending_task demoWorker =
      ({ demoPool with m_queues := demoPool.m_queues.set 1 [.work 3],
                       invoked := demoPool.invoked ++ [.work 4] }, demoWorker) :=
  ⟨⟨rfl, rfl⟩,
   (run_pending_task_tier_order demoPool demoWorker rfl rfl).2.2.1
     [] 1 [0] [.work 3] (.work 4) rfl rfl (by decide) rfl⟩

/-- Witness for C5: after `join` on a fresh one-worker pool, `run_pending_task` by
worker 0 pops the sentinel, invokes nothing and sets the stop flag. -/
theorem sentinel_never_invoked_witness :
    ((ThreadPool.fresh 1).applyAll [.join]).run_pending_task demoWorker =
      ({ (ThreadPool.fresh 1).applyAll [.join] with m_pool_work_queue := [] },
       { demoWorker with m_thread_need_stop := true }) :=
  (sentinel_never_invoked 1 [.join]).2.2.1 demoWorker [] rfl (by decide) rfl

/-- Witness for C8 (amended): on `demoPool` the scan of worker 0 probes queue 1 and
stops there with the task at its back. -/
theorem steal_scan_order_witness :
    (demoPool.m_worker_num ≤ 2 ^ 63 ∧ demoWorker.m_index < demoPool.m_worker_num ∧
      demoPool.m_init_finished = true ∧ demoPool.m_queues.length = demoPool.m_worker_num) ∧
    (demoPool.pop_task_from_other_thread_queue demoWorker).probes = [] ++ [1] ∧
    (demoPool.pop_task_from_other_thread_queue demoWorker).task
      = (demoPool.queueAt 1).getLast? ∧
    (demoPool.pop_task_from_other_thread_queue demoWorker).pool =
      { demoPool with m_queues := demoPool.m_queues.set 1 (demoPool.queueAt 1).dropLast } :=
  ⟨⟨by decide, by decide, rfl, rfl⟩,
   (steal_scan_order demoPool demoWorker (by decide) (by decide) rfl rfl).2.2.2.2.2
     [] 1 [0] rfl (by decide) (by decide)⟩

end hku
